import Mathlib

/-!
# A line filter with context windows (`main.go`)

Shallow embedding of `compileFile`, `processLines`, `max`, `min` and the
post-parse step of `setParams`, followed by the properties proved about them.

Modelling conventions.

* A Go `string` is a Lean `String` (a sequence of Unicode characters, i.e. a
  valid UTF-8 string).
* A Go `int` is a Lean `Int`; every arithmetic operation the source performs
  on `int`s goes through `wrapInt`, the two's-complement wrap-around of a
  64-bit platform.
* A Go value of type `func(string) bool` is a `GoFunc`: the code of the closure
  together with the variables it captured, which a call may update.
* What `processLines` writes to standard output is a list of `Printed` items,
  one per `fmt.Println`.
* Standard-library functions whose code is not part of the program
  (`strings.ToLower`, `regexp.MustCompile`, `(*Regexp).MatchString`) are the
  fields of a `GoLib` parameter. `strings.Contains` is modelled directly.
-/

namespace Grep

/-! ## Machine integers -/

/-- Two's-complement wrap-around of a 64-bit signed integer. -/
def wrapInt (x : Int) : Int := (x + 2 ^ 63) % 2 ^ 64 - 2 ^ 63

/-- Source function `max` (lines 181-186). -/
def max (a b : Int) : Int := if a > b then a else b

/-- Source function `min` (lines 189-194). -/
def min (a b : Int) : Int := if a < b then a else b

/-! ## Parameters -/

/-- Source type `Params` (lines 26-37). -/
structure Params where
  After : Int
  Before : Int
  AfterAndBefore : Int
  Count : Bool
  IgnoreCase : Bool
  Invert : Bool
  Fixed : Bool
  LineNum : Bool
  Pattern : String
  File : String
  deriving DecidableEq, Repr

/-- The post-parse step of `setParams` (lines 71-77): the value returned for
the `params` the flag parser has filled in. -/
def setParamsPost (params : Params) : Params :=
  if params.AfterAndBefore > 0 then
    { params with After := params.AfterAndBefore, Before := params.AfterAndBefore }
  else params

/-! ## Strings -/

/-- Whether `p` is an initial segment of `l`. -/
def hasPrefixChars : List Char → List Char → Bool
  | _, [] => true
  | [], _ :: _ => false
  | c :: l, d :: p => c == d && hasPrefixChars l p

/-- Whether `p` occurs in `l` at some position. -/
def containsChars : List Char → List Char → Bool
  | [], p => hasPrefixChars [] p
  | c :: l, p => hasPrefixChars (c :: l) p || containsChars l p

/-- Library function `strings.Contains(s, substr)`. -/
def strContains (s substr : String) : Bool := containsChars s.data substr.data

/-- The standard-library functions the program calls without containing their
code. `toLower` is `strings.ToLower`; `mustCompile pat` is `none` when
`regexp.MustCompile(pat)` panics and otherwise the `MatchString` function of
the compiled expression. -/
structure GoLib where
  toLower : String → String
  mustCompile : String → Option (String → Bool)

/-! ## Closures -/

/-- A Go value of type `func(string) bool`: `call` is the body, run on the
current values `vars` of the captured variables and the argument; it returns
the result and the new values of the captured variables. -/
structure GoFunc (σ : Type) where
  vars : σ
  call : σ → String → Bool × σ

/-- A function without captured mutable state. -/
def GoFunc.ofPure (p : String → Bool) : GoFunc Unit :=
  { vars := (), call := fun _ line => (p line, ()) }

/-- Body of the closure returned in fixed-string mode (lines 115-123). The
captured variable is `params`. -/
def fixedBody (lib : GoLib) (params : Params) (line : String) : Bool × Params :=
  if params.IgnoreCase then
    let line := lib.toLower line
    let params := { params with Pattern := lib.toLower params.Pattern }
    (strContains line params.Pattern, params)
  else
    (strContains line params.Pattern, params)

/-- Body of the closure returned in regular-expression mode (lines 126-133).
The captured variables are `params` and `re`; neither is assigned. -/
def regexBody (lib : GoLib) (re : String → Bool) (params : Params) (line : String) :
    Bool × Params :=
  if params.IgnoreCase then
    let line := lib.toLower line
    (re line, params)
  else
    (re line, params)

/-- Source function `compileFile` (lines 111-135); `none` is the panic of
`regexp.MustCompile` on an invalid pattern. -/
def compileFile (lib : GoLib) (params : Params) : Option (GoFunc Params) :=
  if params.Fixed then
    some { vars := params, call := fixedBody lib }
  else
    match lib.mustCompile params.Pattern with
    | none => none
    | some re => some { vars := params, call := regexBody lib re }

/-! ## processLines -/

/-- One `fmt.Println` of `processLines`. -/
inductive Printed where
  /-- The `fmt.Println(len(result))` of count mode (line 152). -/
  | count (n : Int)
  /-- The print branch of the window loop (lines 167-172) at loop variable
  `index`: `num` is the argument of `fmt.Printf("%d:", i+1)` when it ran, and
  `text` the argument of `fmt.Println`. -/
  | line (index : Int) (num : Option Int) (text : String)
  deriving DecidableEq, Repr

/-- The characters a `Printed` item puts on standard output. -/
def Printed.render : Printed → String
  | .count n => toString n ++ "\n"
  | .line _ none text => text ++ "\n"
  | .line _ (some k) text => toString k ++ ":" ++ text ++ "\n"

/-- The scan loop (lines 143-148) from loop index `i` on, over the remaining
lines: `vars` are the captured variables of `compile`, `result` the indices
appended so far. -/
def scanLoop {σ : Type} (call : σ → String → Bool × σ) (invert : Bool) :
    List String → Nat → σ → List Int → List Int × σ
  | [], _, vars, result => (result, vars)
  | line :: rest, i, vars, result =>
    let r := call vars line
    if r.1 != invert then
      scanLoop call invert rest (i + 1) r.2 (result ++ [(i : Int)])
    else
      scanLoop call invert rest (i + 1) r.2 result

/-- The match-index list `result` after the scan loop (lines 140-148). -/
def scan {σ : Type} (compile : GoFunc σ) (invert : Bool) (lines : List String) : List Int :=
  (scanLoop compile.call invert lines 0 compile.vars []).1

/-- State of the window loops: the keys of the map `existing` (every stored
value is `true`) and what has been printed. -/
structure EmitState where
  existing : List Int
  out : List Printed
  deriving DecidableEq, Repr

/-- The indexing `lines[i]`; `none` is the out-of-range panic. -/
def index (lines : List String) (i : Int) : Option String :=
  if 0 ≤ i ∧ i < (lines.length : Int) then lines[i.toNat]? else none

/-- The inner loop `for i := start; i < end; i++` (lines 164-176), from the
current `i` on; `fuel` bounds the number of iterations. `none` is a panic. -/
def innerLoop (lines : List String) (lineNum : Bool) (stop : Int) :
    Nat → Int → EmitState → Option EmitState
  | 0, _, st => some st
  | fuel + 1, i, st =>
    if i < stop then
      if !(st.existing.contains i) then
        match index lines i with
        | none => none
        | some text =>
          let num := if lineNum then some (wrapInt (i + 1)) else none
          innerLoop lines lineNum stop fuel (wrapInt (i + 1))
            { existing := i :: st.existing, out := st.out ++ [Printed.line i num text] }
      else
        innerLoop lines lineNum stop fuel (wrapInt (i + 1)) st
    else some st

/-- The outer loop over `result` (lines 160-177). The inner loop gets
`end - start` iterations of fuel, the number it needs to reach `i = end`. -/
def outerLoop (lines : List String) (params : Params) :
    List Int → EmitState → Option EmitState
  | [], st => some st
  | line :: rest, st =>
    let start := max 0 (wrapInt (line - params.Before))
    let stop := min (lines.length : Int) (wrapInt (wrapInt (line + params.After) + 1))
    match innerLoop lines params.LineNum stop (stop - start).toNat start st with
    | none => none
    | some st' => outerLoop lines params rest st'

/-- Source function `processLines` (lines 138-178): what it prints, or `none`
when it panics. -/
def processLines {σ : Type} (lines : List String) (compile : GoFunc σ) (params : Params) :
    Option (List Printed) :=
  let result := scan compile params.Invert lines
  if params.Count then
    some [Printed.count (result.length : Int)]
  else
    match outerLoop lines params result { existing := [], out := [] } with
    | none => none
    | some st => some st.out

/-- The loop indices of the printed lines, in printing order. -/
def printedIndices : List Printed → List Int
  | [] => []
  | .count _ :: ps => printedIndices ps
  | .line i _ _ :: ps => i :: printedIndices ps

/-- The texts of the printed lines, in printing order. -/
def printedTexts : List Printed → List String
  | [] => []
  | .count _ :: ps => printedTexts ps
  | .line _ _ text :: ps => text :: printedTexts ps

/-- The indices `processLines` emits (empty when it panics or only counts). -/
def emitted {σ : Type} (lines : List String) (compile : GoFunc σ) (params : Params) : List Int :=
  match processLines lines compile params with
  | none => []
  | some ps => printedIndices ps

/-- Parameters with every flag off and every number zero. -/
def defaults : Params :=
  { After := 0, Before := 0, AfterAndBefore := 0, Count := false, IgnoreCase := false,
    Invert := false, Fixed := false, LineNum := false, Pattern := "", File := "" }

/-- Lower-casing of the letters `A`-`Z`, which is what `strings.ToLower` does
on a string of ASCII characters. -/
def asciiLower (s : String) : String := String.mk (s.data.map Char.toLower)

/-- A library instance for concrete evaluation: ASCII lower-casing, and a
regular-expression compiler that accepts every pattern and matches it as a
literal substring (the meaning of a pattern without metacharacters). -/
def literalLib : GoLib :=
  { toLower := asciiLower, mustCompile := fun pat => some (fun s => strContains s pat) }

/-- The result of calling the function value now. -/
def GoFunc.result {σ : Type} (f : GoFunc σ) (line : String) : Bool :=
  (f.call f.vars line).1

/-- The function value after it has been called on each line of `pre` in turn. -/
def GoFunc.after {σ : Type} (f : GoFunc σ) : List String → GoFunc σ
  | [] => f
  | l :: rest => GoFunc.after { f with vars := (f.call f.vars l).2 } rest

/-! ## Specification-side functions -/

/-- Case folding as the predicate compiler applies it: the identity when
`ignoreCase` is off, lower-casing of the whole string when it is on. -/
def caseFold (lib : GoLib) (ignoreCase : Bool) (s : String) : String :=
  if ignoreCase then lib.toLower s else s

/-- The integers `i, i+1, …, i+k-1`. -/
def intRange (i : Int) : Nat → List Int
  | 0 => []
  | k + 1 => i :: intRange (i + 1) k

/-- Start of the window of match `m` as line 162 computes it. -/
def startOf (params : Params) (m : Int) : Int :=
  max 0 (wrapInt (m - params.Before))

/-- End of the window of match `m` as line 163 computes it. -/
def stopOf (lines : List String) (params : Params) (m : Int) : Int :=
  min (lines.length : Int) (wrapInt (wrapInt (m + params.After) + 1))

/-- The indices of the window of match `m`, in increasing order. -/
def windowOf (lines : List String) (params : Params) (m : Int) : List Int :=
  intRange (startOf params m) (stopOf lines params m - startOf params m).toNat

/-- Union of windows in processing order: each window contributes, in
increasing order, its indices that are not yet in the accumulated list. -/
def unionWindows (win : Int → List Int) : List Int → List Int → List Int
  | [], acc => acc
  | m :: rest, acc => unionWindows win rest (acc ++ (win m).filter (fun j => !acc.contains j))

/-- The item the print branch produces at loop variable `j` when no
arithmetic wraps. -/
def lineItem (lines : List String) (lineNum : Bool) (j : Int) : Printed :=
  Printed.line j (if lineNum then some (j + 1) else none) (lines.getD j.toNat "")

/-- The list of all `i` in `[0, len(lines))` with `p(lines[i]) != invert`, in
increasing order. -/
def matchIndices (p : String → Bool) (invert : Bool) (lines : List String) : List Int :=
  ((List.range lines.length).filter
    (fun i => match lines[i]? with
      | some l => p l != invert
      | none => false)).map Int.ofNat

/-- The indices the scan loop appends for a pure predicate, from index `i` on. -/
def matchFrom (p : String → Bool) (invert : Bool) : List String → Nat → List Int
  | [], _ => []
  | l :: rest, i =>
    if p l != invert then (i : Int) :: matchFrom p invert rest (i + 1)
    else matchFrom p invert rest (i + 1)

/-- The captured `params` of a fixed-string closure compiled from `params0`
after any number of calls: only `Pattern` may differ, and then it is the
lower-cased original. -/
def FixedVars (lib : GoLib) (params0 vars : Params) : Prop :=
  vars.IgnoreCase = params0.IgnoreCase ∧
    (vars.Pattern = params0.Pattern ∨
      (params0.IgnoreCase = true ∧ vars.Pattern = lib.toLower params0.Pattern))

instance (lib : GoLib) (params0 vars : Params) : Decidable (FixedVars lib params0 vars) := by
  unfold FixedVars
  infer_instance

/-- The successive results of calling the function value on each line of
`lines` in turn. -/
def GoFunc.run {σ : Type} (f : GoFunc σ) : List String → List Bool
  | [] => []
  | l :: rest => (f.call f.vars l).1 :: GoFunc.run { f with vars := (f.call f.vars l).2 } rest

/-- The case-insensitive fixed-string predicate as the specification allows it
to be built: the pattern is folded once, when the predicate is built, and the
predicate tests the folded line against that folded pattern on every call. -/
def foldOnce (lib : GoLib) (pattern : String) : String → Bool :=
  let folded := lib.toLower pattern
  fun line => strContains (lib.toLower line) folded

/-! ## Lemmas on strings -/

theorem hasPrefixChars_iff (l p : List Char) :
    hasPrefixChars l p = true ↔ ∃ b, l = p ++ b := by
  induction l generalizing p with
  | nil =>
    cases p with
    | nil => simp [hasPrefixChars]
    | cons d p => simp [hasPrefixChars]
  | cons c l ih =>
    cases p with
    | nil => simp [hasPrefixChars]
    | cons d p =>
      simp only [hasPrefixChars, Bool.and_eq_true, beq_iff_eq, ih, List.cons_append,
        List.cons.injEq]
      constructor
      · rintro ⟨h, b, hb⟩
        exact ⟨b, h, hb⟩
      · rintro ⟨b, h, hb⟩
        exact ⟨h, b, hb⟩

theorem containsChars_iff (l p : List Char) :
    containsChars l p = true ↔ ∃ a b, l = a ++ p ++ b := by
  induction l with
  | nil =>
    simp only [containsChars, hasPrefixChars_iff]
    constructor
    · rintro ⟨b, hb⟩
      exact ⟨[], b, by simpa using hb⟩
    · rintro ⟨a, b, hab⟩
      have h1 : a ++ p ++ b = [] := hab.symm
      simp only [List.append_eq_nil] at h1
      exact ⟨[], by simp [h1.1.2]⟩
  | cons c l ih =>
    simp only [containsChars, Bool.or_eq_true, hasPrefixChars_iff, ih]
    constructor
    · rintro (⟨b, hb⟩ | ⟨a, b, hab⟩)
      · exact ⟨[], b, by simpa using hb⟩
      · exact ⟨c :: a, b, by simp [hab]⟩
    · rintro ⟨a, b, hab⟩
      cases a with
      | nil => exact Or.inl ⟨b, by simpa using hab⟩
      | cons x a =>
        simp only [List.cons_append, List.cons.injEq] at hab
        exact Or.inr ⟨a, b, by simpa using hab.2⟩

/-! ## Lemmas on the scan loop -/

theorem scanLoop_fst {σ : Type} (call : σ → String → Bool × σ) (invert : Bool) :
    ∀ (lines : List String) (i : Nat) (vars : σ) (result : List Int),
      ∃ extra, (scanLoop call invert lines i vars result).1 = result ++ extra ∧
        extra.Pairwise (· < ·) ∧
        ∀ m ∈ extra, (i : Int) ≤ m ∧ m < (i : Int) + (lines.length : Int) := by
  intro lines
  induction lines with
  | nil =>
    intro i vars result
    exact ⟨[], by simp [scanLoop]⟩
  | cons l rest ih =>
    intro i vars result
    by_cases h : ((call vars l).1 != invert) = true
    · obtain ⟨extra, h1, h2, h3⟩ := ih (i + 1) (call vars l).2 (result ++ [(i : Int)])
      refine ⟨(i : Int) :: extra, ?_, ?_, ?_⟩
      · simp only [scanLoop, h, if_true]
        rw [h1]
        simp
      · rw [List.pairwise_cons]
        refine ⟨fun m hm => ?_, h2⟩
        have := h3 m hm
        push_cast at this
        omega
      · intro m hm
        rcases List.mem_cons.1 hm with rfl | hm
        · simp only [List.length_cons]
          push_cast
          omega
        · have := h3 m hm
          simp only [List.length_cons]
          push_cast at this ⊢
          omega
    · obtain ⟨extra, h1, h2, h3⟩ := ih (i + 1) (call vars l).2 result
      refine ⟨extra, ?_, h2, ?_⟩
      · simp only [scanLoop, h]
        exact h1
      · intro m hm
        have := h3 m hm
        simp only [List.length_cons]
        push_cast at this ⊢
        omega

theorem scan_pairwise {σ : Type} (compile : GoFunc σ) (invert : Bool) (lines : List String) :
    (scan compile invert lines).Pairwise (· < ·) := by
  obtain ⟨extra, h1, h2, _⟩ := scanLoop_fst compile.call invert lines 0 compile.vars []
  unfold scan
  rw [h1]
  simpa using h2

theorem scan_range {σ : Type} (compile : GoFunc σ) (invert : Bool) (lines : List String) :
    ∀ m ∈ scan compile invert lines, 0 ≤ m ∧ m < (lines.length : Int) := by
  obtain ⟨extra, h1, _, h3⟩ := scanLoop_fst compile.call invert lines 0 compile.vars []
  unfold scan
  rw [h1]
  intro m hm
  have := h3 m (by simpa using hm)
  simpa using this

theorem scanLoop_stateless {σ : Type} (compile : GoFunc σ) (p : String → Bool)
    (hpure : ∀ line, compile.call compile.vars line = (p line, compile.vars))
    (invert : Bool) :
    ∀ (lines : List String) (i : Nat) (result : List Int),
      scanLoop compile.call invert lines i compile.vars result
        = (result ++ matchFrom p invert lines i, compile.vars) := by
  intro lines
  induction lines with
  | nil => intro i result; simp [scanLoop, matchFrom]
  | cons l rest ih =>
    intro i result
    by_cases h : (p l != invert) = true
    · simp only [scanLoop, matchFrom, hpure, h, if_true, ih]
      simp
    · simp only [scanLoop, matchFrom, hpure, h, ih]
      simp

theorem matchFrom_eq (p : String → Bool) (invert : Bool) :
    ∀ (lines : List String) (i : Nat),
      matchFrom p invert lines i
        = ((List.range lines.length).filter
            (fun j => match lines[j]? with
              | some l => p l != invert
              | none => false)).map (fun j => ((i + j : Nat) : Int)) := by
  intro lines
  induction lines with
  | nil => intro i; simp [matchFrom]
  | cons l rest ih =>
    intro i
    have hr : List.range (rest.length + 1) = 0 :: (List.range rest.length).map Nat.succ :=
      List.range_succ_eq_map rest.length
    simp only [List.length_cons, hr, matchFrom, ih (i + 1), List.filter_cons, List.filter_map]
    have hf : ((fun j => match (l :: rest)[j]? with
              | some l => p l != invert
              | none => false) ∘ Nat.succ)
        = (fun j => match rest[j]? with
              | some l => p l != invert
              | none => false) := by
      funext j
      simp
    have hg : ((fun j => ((i + j : Nat) : Int)) ∘ Nat.succ)
        = (fun j => ((i + 1 + j : Nat) : Int)) := by
      funext j
      simp only [Function.comp, Nat.succ_eq_add_one]
      congr 1
      omega
    rw [hf]
    by_cases h : (p l != invert) = true
    · simp only [h, if_true, List.map_cons, List.map_map, hg, List.getElem?_cons_zero]
      simp
    · simp only [h, List.map_map, hg, List.getElem?_cons_zero]
      simp
      intro a _ _
      omega

theorem matchFrom_zero (p : String → Bool) (invert : Bool) (lines : List String) :
    matchFrom p invert lines 0 = matchIndices p invert lines := by
  rw [matchFrom_eq]
  unfold matchIndices
  congr 1
  funext j
  simp

theorem scan_stateless {σ : Type} (compile : GoFunc σ) (p : String → Bool)
    (hpure : ∀ line, compile.call compile.vars line = (p line, compile.vars))
    (invert : Bool) (lines : List String) :
    scan compile invert lines = matchIndices p invert lines := by
  unfold scan
  rw [scanLoop_stateless compile p hpure invert lines 0 [], List.nil_append, matchFrom_zero]

theorem scan_pure_eq (p : String → Bool) (invert : Bool) (lines : List String) :
    scan (GoFunc.ofPure p) invert lines = matchIndices p invert lines :=
  scan_stateless (GoFunc.ofPure p) p (fun _ => rfl) invert lines

theorem mem_matchIndices (p : String → Bool) (invert : Bool) (lines : List String) (i : Nat) :
    (i : Int) ∈ matchIndices p invert lines
      ↔ ∃ l, lines[i]? = some l ∧ (p l != invert) = true := by
  unfold matchIndices
  simp only [List.mem_map, List.mem_filter, List.mem_range]
  constructor
  · rintro ⟨j, ⟨hj, hm⟩, hji⟩
    have hji' : j = i := Int.ofNat.inj hji
    subst hji'
    have hl : lines[j]? = some lines[j] := List.getElem?_eq_getElem hj
    rw [hl] at hm
    exact ⟨lines[j], hl, hm⟩
  · rintro ⟨l, hl, hp⟩
    have hi : i < lines.length := by
      by_contra hc
      rw [List.getElem?_eq_none (by omega)] at hl
      cases hl
    refine ⟨i, ⟨hi, ?_⟩, rfl⟩
    rw [hl]
    exact hp

/-! ## Lemmas on machine integers and ranges -/

theorem wrapInt_id (x : Int) (h1 : -2 ^ 63 ≤ x) (h2 : x < 2 ^ 63) : wrapInt x = x := by
  unfold wrapInt
  omega

theorem mem_intRange (j : Int) : ∀ (k : Nat) (i : Int),
    j ∈ intRange i k ↔ i ≤ j ∧ j < i + (k : Int) := by
  intro k
  induction k with
  | zero => intro i; simp [intRange]
  | succ k ih =>
    intro i
    simp only [intRange, List.mem_cons, ih]
    push_cast
    omega

theorem intRange_pairwise : ∀ (k : Nat) (i : Int), (intRange i k).Pairwise (· < ·) := by
  intro k
  induction k with
  | zero => intro i; simp [intRange]
  | succ k ih =>
    intro i
    simp only [intRange, List.pairwise_cons]
    refine ⟨fun j hj => ?_, ih (i + 1)⟩
    have := (mem_intRange j k (i + 1)).1 hj
    omega

theorem startOf_nonneg (params : Params) (m : Int) : 0 ≤ startOf params m := by
  unfold startOf max
  split <;> omega

theorem stopOf_le (lines : List String) (params : Params) (m : Int) :
    stopOf lines params m ≤ (lines.length : Int) := by
  unfold stopOf min
  split <;> omega

theorem mem_windowOf (lines : List String) (params : Params) (m j : Int) :
    j ∈ windowOf lines params m ↔ startOf params m ≤ j ∧ j < stopOf lines params m := by
  unfold windowOf
  rw [mem_intRange]
  omega

/-! ## Lemmas on the window loops -/

theorem printedIndices_map (lines : List String) (lineNum : Bool) (l : List Int) :
    printedIndices (l.map (lineItem lines lineNum)) = l := by
  induction l with
  | nil => rfl
  | cons a l ih => simp [printedIndices, lineItem, ih]

theorem index_eq (lines : List String) (i : Int) (h0 : 0 ≤ i) (h1 : i < (lines.length : Int)) :
    index lines i = some (lines.getD i.toNat "") := by
  have h2 : i.toNat < lines.length := by omega
  unfold index
  rw [if_pos ⟨h0, h1⟩, List.getElem?_eq_getElem h2, List.getD_eq_getElem lines "" h2]

theorem innerLoop_spec (lines : List String) (lineNum : Bool) (stop : Int)
    (hlen : (lines.length : Int) < 2 ^ 63) (hstop : stop ≤ (lines.length : Int)) :
    ∀ (k : Nat) (i : Int) (st : EmitState) (acc : List Int),
      (stop - i).toNat = k → 0 ≤ i → (∀ j, j ∈ st.existing ↔ j ∈ acc) →
      st.out = acc.map (lineItem lines lineNum) →
      ∃ st', innerLoop lines lineNum stop k i st = some st' ∧
        (∀ j, j ∈ st'.existing ↔
          j ∈ acc ++ (intRange i k).filter (fun j => !acc.contains j)) ∧
        st'.out
          = (acc ++ (intRange i k).filter (fun j => !acc.contains j)).map
              (lineItem lines lineNum) := by
  intro k
  induction k with
  | zero =>
    intro i st acc _ _ hex hout
    exact ⟨st, rfl, by simpa [intRange] using hex, by simpa [intRange] using hout⟩
  | succ k ih =>
    intro i st acc hk hi hex hout
    have hlt : i < stop := by omega
    have hw : wrapInt (i + 1) = i + 1 := wrapInt_id _ (by omega) (by omega)
    have hk' : (stop - (i + 1)).toNat = k := by omega
    by_cases hc : i ∈ acc
    · have hc' : st.existing.contains i = true := by simpa using (hex i).2 hc
      obtain ⟨st', h1, h2, h3⟩ := ih (i + 1) st acc hk' (by omega) hex hout
      refine ⟨st', ?_, ?_, ?_⟩
      · simp only [innerLoop, hlt, if_true, hc', hw]
        simpa using h1
      · simpa [intRange, hc] using h2
      · simpa [intRange, hc] using h3
    · have hc' : st.existing.contains i = false := by
        have : ¬ i ∈ st.existing := fun h => hc ((hex i).1 h)
        simpa using this
      have hidx := index_eq lines i hi (by omega)
      have hfil : (intRange (i + 1) k).filter (fun j => !(acc ++ [i]).contains j)
          = (intRange (i + 1) k).filter (fun j => !acc.contains j) := by
        apply List.filter_congr
        intro j hj
        have := (mem_intRange j k (i + 1)).1 hj
        have hne : j ≠ i := by omega
        simp [hne]
      obtain ⟨st', h1, h2, h3⟩ := ih (i + 1)
        { existing := i :: st.existing,
          out := st.out ++ [Printed.line i (if lineNum then some (i + 1) else none)
            (lines.getD i.toNat "")] }
        (acc ++ [i]) hk' (by omega)
        (by
          intro j
          simp only [List.mem_cons, List.mem_append, List.not_mem_nil, or_false, hex j]
          exact or_comm)
        (by simp [hout, lineItem])
      rw [hfil] at h2 h3
      refine ⟨st', ?_, ?_, ?_⟩
      · simp only [innerLoop, hlt, if_true, hc', hw, hidx]
        simpa using h1
      · simpa [intRange, hc] using h2
      · simpa [intRange, hc] using h3

theorem outerLoop_spec (lines : List String) (params : Params)
    (hlen : (lines.length : Int) < 2 ^ 63) :
    ∀ (result : List Int) (st : EmitState) (acc : List Int),
      (∀ j, j ∈ st.existing ↔ j ∈ acc) →
      st.out = acc.map (lineItem lines params.LineNum) →
      ∃ st', outerLoop lines params result st = some st' ∧
        st'.out = (unionWindows (windowOf lines params) result acc).map
          (lineItem lines params.LineNum) := by
  intro result
  induction result with
  | nil =>
    intro st acc _ hout
    exact ⟨st, rfl, by simpa [unionWindows] using hout⟩
  | cons m rest ih =>
    intro st acc hex hout
    obtain ⟨st1, h1, h2, h3⟩ := innerLoop_spec lines params.LineNum (stopOf lines params m)
      hlen (stopOf_le lines params m)
      (stopOf lines params m - startOf params m).toNat (startOf params m) st acc rfl
      (startOf_nonneg params m) hex hout
    obtain ⟨st', h4, h5⟩ := ih st1 _ h2 h3
    refine ⟨st', ?_, ?_⟩
    · simp only [outerLoop]
      simp only [startOf, stopOf] at h1
      rw [h1]
      exact h4
    · rw [h5]
      rfl

theorem processLines_eq {σ : Type} (lines : List String) (compile : GoFunc σ) (params : Params)
    (hlen : (lines.length : Int) < 2 ^ 63) (hcount : params.Count = false) :
    processLines lines compile params
      = some ((unionWindows (windowOf lines params) (scan compile params.Invert lines) []).map
          (lineItem lines params.LineNum)) := by
  obtain ⟨st', h1, h2⟩ := outerLoop_spec lines params hlen
    (scan compile params.Invert lines) { existing := [], out := [] } [] (by simp) (by simp)
  simp only [processLines, hcount, h1, h2]
  simp

theorem emitted_eq {σ : Type} (lines : List String) (compile : GoFunc σ) (params : Params)
    (hlen : (lines.length : Int) < 2 ^ 63) (hcount : params.Count = false) :
    emitted lines compile params
      = unionWindows (windowOf lines params) (scan compile params.Invert lines) [] := by
  unfold emitted
  rw [processLines_eq lines compile params hlen hcount]
  exact printedIndices_map _ _ _

/-! ## Lemmas on the union of windows -/

theorem mem_unionWindows (win : Int → List Int) (j : Int) :
    ∀ (ms acc : List Int),
      j ∈ unionWindows win ms acc ↔ j ∈ acc ∨ ∃ m ∈ ms, j ∈ win m := by
  intro ms
  induction ms with
  | nil => intro acc; simp [unionWindows]
  | cons m rest ih =>
    intro acc
    simp only [unionWindows, ih, List.mem_append, List.mem_filter, List.mem_cons]
    by_cases hj : j ∈ acc
    · simp [hj]
    · simp [hj]

theorem unionWindows_pairwise (win : Int → List Int) :
    ∀ (ms acc : List Int),
      acc.Pairwise (· < ·) →
      (∀ m ∈ ms, (win m).Pairwise (· < ·)) →
      (∀ x ∈ acc, ∀ m ∈ ms, ∀ j ∈ win m, j ≤ x → j ∈ acc) →
      ms.Pairwise (fun m m' => ∀ x ∈ win m, ∀ j ∈ win m', j ≤ x → j ∈ win m) →
      (unionWindows win ms acc).Pairwise (· < ·) := by
  intro ms
  induction ms with
  | nil => intro acc hacc _ _ _; simpa [unionWindows] using hacc
  | cons m rest ih =>
    intro acc hacc hwin hcomp hpair
    rw [List.pairwise_cons] at hpair
    simp only [unionWindows]
    apply ih
    · rw [List.pairwise_append]
      refine ⟨hacc, (hwin m (List.mem_cons_self _ _)).filter _, ?_⟩
      intro x hx j hj
      rw [List.mem_filter] at hj
      by_contra hlt
      have hle : j ≤ x := by omega
      have := hcomp x hx m (List.mem_cons_self _ _) j hj.1 hle
      simp [this] at hj
    · intro m' hm'
      exact hwin m' (List.mem_cons_of_mem _ hm')
    · intro x hx m' hm' j hj hle
      rw [List.mem_append] at hx ⊢
      rcases hx with hx | hx
      · exact Or.inl (hcomp x hx m' (List.mem_cons_of_mem _ hm') j hj hle)
      · rw [List.mem_filter] at hx
        have hjm : j ∈ win m := hpair.1 m' hm' x hx.1 j hj hle
        by_cases hja : j ∈ acc
        · exact Or.inl hja
        · exact Or.inr (List.mem_filter.2 ⟨hjm, by simpa using hja⟩)
    · exact hpair.2

theorem windowOf_pairwise (lines : List String) (params : Params) (m : Int) :
    (windowOf lines params m).Pairwise (· < ·) :=
  intRange_pairwise _ _

theorem startOf_mono (lines : List String) (params : Params)
    (hlen : (lines.length : Int) ≤ 2 ^ 62) (m m' x j : Int)
    (hm : 0 ≤ m) (hmm : m < m') (hm' : m' < (lines.length : Int))
    (hx : x ∈ windowOf lines params m) (hj : j ∈ windowOf lines params m') (hle : j ≤ x) :
    j ∈ windowOf lines params m := by
  rw [mem_windowOf] at hx hj ⊢
  have h1 := stopOf_le lines params m
  refine ⟨?_, by omega⟩
  obtain ⟨hx1, hx2⟩ := hx
  obtain ⟨hj1, _⟩ := hj
  unfold startOf max wrapInt at *
  split at hx1 <;> split at hj1 <;> split <;> omega

theorem scan_windows_pairwise {σ : Type} (lines : List String) (compile : GoFunc σ)
    (params : Params) (hlen : (lines.length : Int) ≤ 2 ^ 62) :
    (scan compile params.Invert lines).Pairwise
      (fun m m' => ∀ x ∈ windowOf lines params m, ∀ j ∈ windowOf lines params m',
        j ≤ x → j ∈ windowOf lines params m) := by
  have hs := scan_pairwise compile params.Invert lines
  have hr := scan_range compile params.Invert lines
  generalize scan compile params.Invert lines = ms at hs hr
  induction ms with
  | nil => exact List.Pairwise.nil
  | cons m rest ih =>
    rw [List.pairwise_cons] at hs ⊢
    refine ⟨?_, ih hs.2 (fun a ha => hr a (List.mem_cons_of_mem _ ha))⟩
    intro m' hm' x hx j hj hle
    exact startOf_mono lines params hlen m m' x j (hr m (List.mem_cons_self _ _)).1
      (hs.1 m' hm') (hr m' (List.mem_cons_of_mem _ hm')).2 hx hj hle

theorem mem_emitted_iff {σ : Type} (lines : List String) (compile : GoFunc σ) (params : Params)
    (hlen : (lines.length : Int) < 2 ^ 63) (hcount : params.Count = false) (i : Int) :
    i ∈ emitted lines compile params
      ↔ ∃ m ∈ scan compile params.Invert lines,
          startOf params m ≤ i ∧ i < stopOf lines params m := by
  rw [emitted_eq lines compile params hlen hcount, mem_unionWindows]
  simp [mem_windowOf]

theorem emitted_count {σ : Type} (lines : List String) (compile : GoFunc σ) (params : Params)
    (hcount : params.Count = true) : emitted lines compile params = [] := by
  simp [emitted, processLines, hcount, printedIndices]

/-! ## Emitted indices: the union of the windows -/

theorem startOf_eq (params : Params) (m : Int) (hm0 : 0 ≤ m) (hm : m < 2 ^ 63)
    (hb0 : 0 ≤ params.Before) (hb : params.Before < 2 ^ 63) :
    startOf params m = Grep.max 0 (m - params.Before) := by
  unfold startOf
  rw [wrapInt_id _ (by omega) (by omega)]

theorem stopOf_eq (lines : List String) (params : Params) (m : Int) (hm0 : 0 ≤ m)
    (hm : m < (lines.length : Int)) (ha0 : 0 ≤ params.After)
    (ha : (lines.length : Int) + params.After < 2 ^ 63) :
    stopOf lines params m = Grep.min (lines.length : Int) (m + params.After + 1) := by
  unfold stopOf
  rw [wrapInt_id (m + params.After) (by omega) (by omega), wrapInt_id _ (by omega) (by omega)]

/-- Without wrap-around in line 163 (`len(lines) + after < 2^63`) and with
non-negative `before` and `after`, the emitted indices are exactly the union
of the clamped windows of the matched indices. -/
theorem mem_emitted_iff_window {σ : Type} (lines : List String) (compile : GoFunc σ)
    (params : Params) (hcount : params.Count = false)
    (hb0 : 0 ≤ params.Before) (hb : params.Before < 2 ^ 63) (ha0 : 0 ≤ params.After)
    (ha : (lines.length : Int) + params.After < 2 ^ 63) (i : Int) :
    i ∈ emitted lines compile params
      ↔ ∃ m ∈ scan compile params.Invert lines,
          Grep.max 0 (m - params.Before) ≤ i ∧
          i < Grep.min (lines.length : Int) (m + params.After + 1) := by
  rw [mem_emitted_iff lines compile params (by omega) hcount]
  constructor
  · rintro ⟨m, hm, h⟩
    have hr := scan_range compile params.Invert lines m hm
    rw [startOf_eq params m hr.1 (by omega) hb0 hb, stopOf_eq lines params m hr.1 hr.2 ha0 ha] at h
    exact ⟨m, hm, h⟩
  · rintro ⟨m, hm, h⟩
    have hr := scan_range compile params.Invert lines m hm
    rw [← startOf_eq params m hr.1 (by omega) hb0 hb,
      ← stopOf_eq lines params m hr.1 hr.2 ha0 ha] at h
    exact ⟨m, hm, h⟩

/-- C1 (the code departs from the claim). On the one-line input `["a"]` with a
predicate that accepts every line, `before = 0` and `after = 2^63 - 1`, index 0
is a matched index and lies in its clamped window
`[max(0, 0-0), min(1, 0+after+1))`, yet `processLines` prints nothing: the sum
`line+params.After+1` of line 163 wraps around to `-2^63`, so the window loop
does not run. -/
theorem after_overflow_emits_nothing :
    processLines ["a"] (GoFunc.ofPure (fun _ => true))
        { defaults with After := 9223372036854775807 } = some [] ∧
      (0 : Int) ∈ scan (GoFunc.ofPure (fun _ => true)) false ["a"] ∧
      Grep.max 0 (0 - 0) ≤ 0 ∧
      (0 : Int) < Grep.min (["a"].length : Int) (0 + 9223372036854775807 + 1) := by
  refine ⟨by decide, by decide, by decide, by decide⟩

/-- C2. For every line sequence, every function value `compile`, every invert
flag and every integer `before` and `after`, `processLines` returns, and the
indices it emits are, in emission order, strictly increasing, hence without
repetition. The bound on the length holds for every slice a 64-bit Go program
can hold (an element of a `[]string` takes 16 bytes). -/
theorem emitted_strictly_increasing {σ : Type} (lines : List String) (compile : GoFunc σ)
    (params : Params) (hlen : lines.length < 2 ^ 62) :
    ∃ ps, processLines lines compile params = some ps ∧
      (printedIndices ps).Pairwise (· < ·) ∧ (printedIndices ps).Nodup := by
  have hlen' : (lines.length : Int) < 2 ^ 62 := by exact_mod_cast hlen
  have key : ∃ ps, processLines lines compile params = some ps ∧
      (printedIndices ps).Pairwise (· < ·) := by
    cases hcount : params.Count with
    | true =>
      refine ⟨[Printed.count ((scan compile params.Invert lines).length : Int)], ?_, ?_⟩
      · simp [processLines, hcount]
      · exact List.Pairwise.nil
    | false =>
      refine ⟨_, processLines_eq lines compile params (by omega) hcount, ?_⟩
      rw [printedIndices_map]
      apply unionWindows_pairwise
      · exact List.Pairwise.nil
      · intro m _
        exact windowOf_pairwise lines params m
      · intro x hx
        cases hx
      · exact scan_windows_pairwise lines compile params (by omega)
  obtain ⟨ps, h1, h2⟩ := key
  exact ⟨ps, h1, h2, h2.imp (fun h => ne_of_lt h)⟩

theorem emitted_strictly_increasing_witness :
    ∃ ps, processLines ["a", "b", "m", "c", "m", "d"] (GoFunc.ofPure (fun s => s == "m"))
        { defaults with Before := 1, After := 1 } = some ps ∧
      printedIndices ps = [1, 2, 3, 4, 5] ∧
      (printedIndices ps).Pairwise (· < ·) ∧ (printedIndices ps).Nodup := by
  obtain ⟨ps, h1, h2, h3⟩ := emitted_strictly_increasing ["a", "b", "m", "c", "m", "d"]
    (GoFunc.ofPure (fun s => s == "m")) { defaults with Before := 1, After := 1 } (by decide)
  refine ⟨ps, h1, ?_, h2, h3⟩
  have h4 : processLines ["a", "b", "m", "c", "m", "d"] (GoFunc.ofPure (fun s => s == "m"))
      { defaults with Before := 1, After := 1 }
      = some [Printed.line 1 none "b", Printed.line 2 none "m", Printed.line 3 none "c",
          Printed.line 4 none "m", Printed.line 5 none "d"] := by decide
  rw [h4] at h1
  cases h1
  rfl

/-! ## The match-index list -/

theorem mem_matchIndices_int (p : String → Bool) (invert : Bool) (lines : List String)
    (m : Int) :
    m ∈ matchIndices p invert lines
      ↔ 0 ≤ m ∧ ∃ l, lines[m.toNat]? = some l ∧ (p l != invert) = true := by
  constructor
  · intro hm
    have hm' := hm
    unfold matchIndices at hm'
    obtain ⟨i, _, rfl⟩ := List.mem_map.1 hm'
    exact ⟨Int.ofNat_nonneg i, (mem_matchIndices p invert lines i).1 hm⟩
  · rintro ⟨h0, h⟩
    have := (mem_matchIndices p invert lines m.toNat).2 h
    rwa [Int.toNat_of_nonneg h0] at this

/-- C3. For a pure predicate `p`, the match-index list built by the scan loop
is the list of all `i` in `[0, len(lines))` with `p(lines[i]) != invert` in
increasing order: it is strictly increasing, every value is in range, and an
index is present iff the condition holds for its line. -/
theorem scan_is_match_indices (lines : List String) (p : String → Bool) (invert : Bool) :
    scan (GoFunc.ofPure p) invert lines = matchIndices p invert lines ∧
      (scan (GoFunc.ofPure p) invert lines).Pairwise (· < ·) ∧
      (∀ m ∈ scan (GoFunc.ofPure p) invert lines, 0 ≤ m ∧ m < (lines.length : Int)) ∧
      (∀ i : Nat, (i : Int) ∈ scan (GoFunc.ofPure p) invert lines
        ↔ ∃ l, lines[i]? = some l ∧ (p l != invert) = true) := by
  refine ⟨scan_pure_eq p invert lines, scan_pairwise _ invert lines,
    scan_range _ invert lines, fun i => ?_⟩
  rw [scan_pure_eq]
  exact mem_matchIndices p invert lines i

/-- C4 (invert law). For a pure predicate `p`, an integer is a match index
with `invert = true` iff it lies in `[0, len(lines))` and is not a match index
with `invert = false`; the two lists are disjoint, and together they hold
every index of `[0, len(lines))` exactly once. -/
theorem invert_is_complement (lines : List String) (p : String → Bool) :
    (∀ m : Int, m ∈ scan (GoFunc.ofPure p) true lines
        ↔ 0 ≤ m ∧ m < (lines.length : Int) ∧ ¬ m ∈ scan (GoFunc.ofPure p) false lines) ∧
      List.Disjoint (scan (GoFunc.ofPure p) true lines) (scan (GoFunc.ofPure p) false lines) ∧
      List.Perm (scan (GoFunc.ofPure p) true lines ++ scan (GoFunc.ofPure p) false lines)
        ((List.range lines.length).map Int.ofNat) := by
  have hcompl : ∀ m : Int, m ∈ scan (GoFunc.ofPure p) true lines
      ↔ 0 ≤ m ∧ m < (lines.length : Int) ∧ ¬ m ∈ scan (GoFunc.ofPure p) false lines := by
    intro m
    rw [scan_pure_eq, scan_pure_eq, mem_matchIndices_int, mem_matchIndices_int]
    constructor
    · rintro ⟨h0, l, hl, hp⟩
      have hlt : m.toNat < lines.length := by
        by_contra hc
        rw [List.getElem?_eq_none (by omega)] at hl
        cases hl
      refine ⟨h0, by omega, ?_⟩
      rintro ⟨_, l', hl', hp'⟩
      rw [hl] at hl'
      cases hl'
      cases hpl : p l <;> simp [hpl] at hp hp'
    · rintro ⟨h0, hlt, hn⟩
      have hlt' : m.toNat < lines.length := by omega
      refine ⟨h0, lines[m.toNat], List.getElem?_eq_getElem hlt', ?_⟩
      cases hpl : p lines[m.toNat]
      · rfl
      · exact absurd ⟨h0, lines[m.toNat], List.getElem?_eq_getElem hlt', by simp [hpl]⟩ hn
  have hdisj : List.Disjoint (scan (GoFunc.ofPure p) true lines)
      (scan (GoFunc.ofPure p) false lines) := by
    intro m h1 h2
    exact ((hcompl m).1 h1).2.2 h2
  refine ⟨hcompl, hdisj, ?_⟩
  have hnd : ∀ b, (scan (GoFunc.ofPure p) b lines).Nodup := fun b =>
    (scan_pairwise (GoFunc.ofPure p) b lines).imp (fun h => ne_of_lt h)
  rw [List.perm_ext_iff_of_nodup (List.nodup_append.2 ⟨hnd true, hnd false, hdisj⟩)
    ((List.nodup_range _).map (fun a b h => Int.ofNat.inj h))]
  intro m
  rw [List.mem_append, List.mem_map]
  constructor
  · rintro (h | h)
    · have := scan_range _ _ _ m h
      exact ⟨m.toNat, List.mem_range.2 (by omega), Int.toNat_of_nonneg this.1⟩
    · have := scan_range _ _ _ m h
      exact ⟨m.toNat, List.mem_range.2 (by omega), Int.toNat_of_nonneg this.1⟩
  · rintro ⟨i, hi, rfl⟩
    have hi' := List.mem_range.1 hi
    by_cases h : Int.ofNat i ∈ scan (GoFunc.ofPure p) false lines
    · exact Or.inr h
    · exact Or.inl ((hcompl _).2 ⟨Int.ofNat_nonneg i, by simpa using hi', h⟩)

/-- C5. In count mode `processLines` prints exactly one item, the number of
matched indices (for a pure predicate `p`, the number of `i` with
`p(lines[i]) != invert`); it emits no line, and the output is the same for
every `before` and `after`. -/
theorem count_mode (lines : List String) (p : String → Bool) (params : Params)
    (hcount : params.Count = true) :
    processLines lines (GoFunc.ofPure p) params
        = some [Printed.count ((matchIndices p params.Invert lines).length : Int)] ∧
      (matchIndices p params.Invert lines).length
        = (scan (GoFunc.ofPure p) params.Invert lines).length ∧
      emitted lines (GoFunc.ofPure p) params = [] ∧
      (∀ before after : Int,
        processLines lines (GoFunc.ofPure p) { params with Before := before, After := after }
          = processLines lines (GoFunc.ofPure p) params) := by
  refine ⟨?_, by rw [scan_pure_eq], emitted_count _ _ _ hcount, ?_⟩
  · simp [processLines, hcount, scan_pure_eq]
  · intro before after
    simp [processLines, hcount]

theorem count_mode_witness :
    processLines ["a", "b", "m", "c", "d"] (GoFunc.ofPure (fun s => s == "m"))
        { defaults with Before := 2, After := 2, Count := true }
      = some [Printed.count 1] ∧
    processLines ["a", "b", "m", "c", "d"] (GoFunc.ofPure (fun s => s == "m"))
        { defaults with Before := 2, After := 2, Count := false }
      = some [Printed.line 0 none "a", Printed.line 1 none "b", Printed.line 2 none "m",
          Printed.line 3 none "c", Printed.line 4 none "d"] :=
  ⟨(count_mode ["a", "b", "m", "c", "d"] (fun s => s == "m")
      { defaults with Before := 2, After := 2, Count := true } rfl).1.trans (by decide),
    by decide⟩

/-! ## The post-parse step of setParams -/

/-- C10 (`C` precedence). The post-parse step of `setParams` yields
`before = after = C` whenever `C > 0`, and leaves `before = B` and `after = A`
(indeed all of `params`) unchanged whenever `C <= 0`. -/
theorem around_overrides (params : Params) :
    (params.AfterAndBefore > 0 →
        (setParamsPost params).Before = params.AfterAndBefore ∧
        (setParamsPost params).After = params.AfterAndBefore) ∧
      (params.AfterAndBefore ≤ 0 →
        (setParamsPost params).Before = params.Before ∧
        (setParamsPost params).After = params.After ∧
        setParamsPost params = params) := by
  constructor
  · intro h
    simp [setParamsPost, h]
  · intro h
    have h' : ¬ params.AfterAndBefore > 0 := by omega
    simp [setParamsPost, h']

theorem around_overrides_witness :
    ((setParamsPost { defaults with After := 5, Before := 5, AfterAndBefore := 2 }).Before = 2 ∧
      (setParamsPost { defaults with After := 5, Before := 5, AfterAndBefore := 2 }).After = 2) ∧
    ((setParamsPost { defaults with After := 3, Before := 4, AfterAndBefore := 0 }).Before = 4 ∧
      (setParamsPost { defaults with After := 3, Before := 4, AfterAndBefore := 0 }).After = 3 ∧
      setParamsPost { defaults with After := 3, Before := 4, AfterAndBefore := 0 }
        = { defaults with After := 3, Before := 4, AfterAndBefore := 0 }) :=
  ⟨(around_overrides { defaults with After := 5, Before := 5, AfterAndBefore := 2 }).1
      (by decide),
    (around_overrides { defaults with After := 3, Before := 4, AfterAndBefore := 0 }).2
      (by decide)⟩

/-! ## The predicate compiler -/

theorem strContains_iff (s sub : String) :
    strContains s sub = true ↔ ∃ a b, s.data = a ++ sub.data ++ b :=
  containsChars_iff s.data sub.data

theorem charToLower_idem (c : Char) : Char.toLower (Char.toLower c) = Char.toLower c := by
  by_cases h : c.toNat ≥ 65 ∧ c.toNat ≤ 90
  · have h1 : Char.toLower c = Char.ofNat (c.toNat + 32) := by
      unfold Char.toLower
      simp only [h, and_self, if_true]
    rw [h1]
    generalize c.toNat = n at h
    obtain ⟨h2, h3⟩ := h
    interval_cases n <;> rfl
  · have h1 : Char.toLower c = c := by
      unfold Char.toLower
      simp only [h, if_false]
    rw [h1, h1]

theorem asciiLower_idem (s : String) : asciiLower (asciiLower s) = asciiLower s := by
  unfold asciiLower
  simp [List.map_map, Function.comp_def, charToLower_idem]

theorem fixedBody_result (lib : GoLib) (params0 vars : Params) (L : String)
    (hidem : params0.IgnoreCase = true → ∀ s, lib.toLower (lib.toLower s) = lib.toLower s)
    (hv : FixedVars lib params0 vars) :
    (fixedBody lib vars L).1
        = strContains (caseFold lib params0.IgnoreCase L)
            (caseFold lib params0.IgnoreCase params0.Pattern) ∧
      FixedVars lib params0 (fixedBody lib vars L).2 := by
  obtain ⟨hic, hpat⟩ := hv
  cases h : params0.IgnoreCase with
  | false =>
    rw [h] at hic
    have hp : vars.Pattern = params0.Pattern := by
      rcases hpat with hp | ⟨h', _⟩
      · exact hp
      · rw [h] at h'
        cases h'
    simp [fixedBody, caseFold, hic, hp, FixedVars, h]
  | true =>
    rw [h] at hic
    have hp : lib.toLower vars.Pattern = lib.toLower params0.Pattern := by
      rcases hpat with hp | ⟨_, hp⟩
      · rw [hp]
      · rw [hp, hidem h]
    simp [fixedBody, caseFold, hic, hp, FixedVars, h]

theorem fixed_after (lib : GoLib) (params0 : Params)
    (hidem : params0.IgnoreCase = true → ∀ s, lib.toLower (lib.toLower s) = lib.toLower s) :
    ∀ (pre : List String) (g : GoFunc Params), g.call = fixedBody lib →
      FixedVars lib params0 g.vars →
      (g.after pre).call = fixedBody lib ∧ FixedVars lib params0 (g.after pre).vars := by
  intro pre
  induction pre with
  | nil => intro g hc hv; exact ⟨hc, hv⟩
  | cons l rest ih =>
    intro g hc hv
    simp only [GoFunc.after]
    apply ih
    · exact hc
    · simp only [hc]
      exact (fixedBody_result lib params0 g.vars l hidem hv).2

/-- C6. In fixed-string mode the predicate returned by `compileFile` is true on
a line `L` iff the folded pattern is a contiguous substring of the folded `L`,
where folding is the identity when `ignoreCase` is off and lower-casing when it
is on. This holds for the first call without any assumption, and for a call
after any earlier calls `pre` when lower-casing is idempotent (the closure
lower-cases its stored pattern again on every call). -/
theorem fixed_predicate (lib : GoLib) (params : Params) (hfixed : params.Fixed = true)
    (L : String) :
    ∃ f, compileFile lib params = some f ∧
      (f.result L = true ↔
        ∃ a b, (caseFold lib params.IgnoreCase L).data
          = a ++ (caseFold lib params.IgnoreCase params.Pattern).data ++ b) ∧
      ((params.IgnoreCase = true → ∀ s, lib.toLower (lib.toLower s) = lib.toLower s) →
        ∀ pre : List String, ((f.after pre).result L = true ↔
          ∃ a b, (caseFold lib params.IgnoreCase L).data
            = a ++ (caseFold lib params.IgnoreCase params.Pattern).data ++ b)) := by
  refine ⟨{ vars := params, call := fixedBody lib }, by simp [compileFile, hfixed], ?_, ?_⟩
  · rw [← strContains_iff]
    cases h : params.IgnoreCase <;> simp [GoFunc.result, fixedBody, caseFold, h]
  · intro hidem pre
    have hv0 : FixedVars lib params params := ⟨rfl, Or.inl rfl⟩
    obtain ⟨hc, hv⟩ := fixed_after lib params hidem pre
      { vars := params, call := fixedBody lib } rfl hv0
    rw [← strContains_iff]
    simp only [GoFunc.result, hc]
    rw [(fixedBody_result lib params _ L hidem hv).1]

theorem fixed_predicate_witness :
    ∃ f, compileFile literalLib
        { defaults with Fixed := true, IgnoreCase := true, Pattern := "AN" } = some f ∧
      f.result "BaNana" = true ∧ (f.after ["x", "Y"]).result "BaNana" = true := by
  obtain ⟨f, hf, h1, h2⟩ := fixed_predicate literalLib
    { defaults with Fixed := true, IgnoreCase := true, Pattern := "AN" } rfl "BaNana"
  have hsub : ∃ a b, (caseFold literalLib true "BaNana").data
      = a ++ (caseFold literalLib true "AN").data ++ b := ⟨['b'], ['a', 'n', 'a'], by decide⟩
  exact ⟨f, hf, h1.2 hsub, (h2 (fun _ => asciiLower_idem) ["x", "Y"]).2 hsub⟩

/-- C8. In regular-expression mode with `ignoreCase` set and a pattern that
compiles to `re`, the predicate's result on a line `L` is the result of the
case-sensitive predicate for the same pattern on the lower-cased `L`, namely
`re` applied to the lower-cased `L`: only the line is folded, the pattern is
compiled unmodified. The call leaves the captured variables unchanged, so this
holds for every call. -/
theorem regex_folds_line_only (lib : GoLib) (params : Params) (re : String → Bool)
    (hfixed : params.Fixed = false) (hic : params.IgnoreCase = true)
    (hre : lib.mustCompile params.Pattern = some re) (L : String) :
    ∃ f g, compileFile lib params = some f ∧
      compileFile lib { params with IgnoreCase := false } = some g ∧
      f.result L = g.result (lib.toLower L) ∧
      f.result L = re (lib.toLower L) ∧
      (f.call f.vars L).2 = f.vars ∧
      (g.call g.vars (lib.toLower L)).2 = g.vars := by
  refine ⟨{ vars := params, call := regexBody lib re },
    { vars := { params with IgnoreCase := false }, call := regexBody lib re }, ?_, ?_, ?_, ?_,
    ?_, ?_⟩
  · simp [compileFile, hfixed, hre]
  · simp [compileFile, hfixed, hre]
  · simp [GoFunc.result, regexBody, hic]
  · simp [GoFunc.result, regexBody, hic]
  · simp [regexBody, hic]
  · simp [regexBody]

theorem regex_folds_line_only_witness :
    ∃ f g, compileFile literalLib { defaults with IgnoreCase := true, Pattern := "an" } = some f ∧
      compileFile literalLib
        { { defaults with IgnoreCase := true, Pattern := "an" } with IgnoreCase := false }
          = some g ∧
      f.result "BANANA" = g.result (literalLib.toLower "BANANA") ∧
      f.result "BANANA" = strContains (literalLib.toLower "BANANA") "an" ∧
      (f.call f.vars "BANANA").2 = f.vars ∧
      (g.call g.vars (literalLib.toLower "BANANA")).2 = g.vars :=
  regex_folds_line_only literalLib { defaults with IgnoreCase := true, Pattern := "an" }
    (fun s => strContains s "an") rfl rfl rfl "BANANA"

/-! ## Filtering without context -/

theorem unionWindows_singletons (win : Int → List Int) :
    ∀ (ms acc : List Int), (∀ m ∈ ms, win m = [m]) → ms.Nodup → (∀ m ∈ ms, ¬ m ∈ acc) →
      unionWindows win ms acc = acc ++ ms := by
  intro ms
  induction ms with
  | nil => intro acc _ _ _; simp [unionWindows]
  | cons m rest ih =>
    intro acc hwin hnd hdis
    rw [List.nodup_cons] at hnd
    have hm : ¬ m ∈ acc := hdis m (List.mem_cons_self _ _)
    simp only [unionWindows, hwin m (List.mem_cons_self _ _)]
    rw [ih]
    · simp [hm]
    · intro a ha
      exact hwin a (List.mem_cons_of_mem _ ha)
    · exact hnd.2
    · intro a ha
      simp only [List.filter_cons, List.filter_nil, List.mem_append]
      rintro (h | h)
      · exact hdis a (List.mem_cons_of_mem _ ha) h
      · simp only [List.contains_eq_any_beq, List.any_eq_true, beq_iff_eq, exists_eq_right',
          Bool.not_eq_true', decide_eq_false_iff_not] at h
        split at h
        · rw [List.mem_singleton] at h
          subst h
          exact hnd.1 ha
        · cases h

theorem windowOf_zero (lines : List String) (params : Params)
    (hlen : (lines.length : Int) < 2 ^ 63) (hb : params.Before = 0) (ha : params.After = 0)
    (m : Int) (hm0 : 0 ≤ m) (hm : m < (lines.length : Int)) :
    windowOf lines params m = [m] := by
  have h1 : startOf params m = m := by
    unfold startOf max
    rw [hb, wrapInt_id _ (by omega) (by omega)]
    split <;> omega
  have h2 : stopOf lines params m = m + 1 := by
    unfold stopOf min
    rw [ha, wrapInt_id (m + 0) (by omega) (by omega), wrapInt_id _ (by omega) (by omega)]
    split <;> omega
  unfold windowOf
  rw [h1, h2]
  have : (m + 1 - m).toNat = 1 := by omega
  rw [this]
  rfl

theorem matchFrom_texts (p : String → Bool) (invert : Bool) :
    ∀ (lines pre : List String),
      (matchFrom p invert lines pre.length).map (fun i => (pre ++ lines).getD i.toNat "")
        = lines.filter (fun l => p l != invert) := by
  intro lines
  induction lines with
  | nil => intro pre; simp [matchFrom]
  | cons l rest ih =>
    intro pre
    have h := ih (pre ++ [l])
    simp only [List.length_append, List.length_singleton, List.append_assoc,
      List.singleton_append] at h
    have hget : (pre ++ l :: rest).getD ((pre.length : Nat) : Int).toNat "" = l := by
      rw [Int.toNat_ofNat]
      simp [List.getD_eq_getElem?_getD, List.getElem?_append_right (le_refl _)]
    by_cases hp : (p l != invert) = true
    · rw [matchFrom, if_pos hp, List.map_cons, List.filter_cons, if_pos hp, h, hget]
    · rw [matchFrom, if_neg hp, List.filter_cons, if_neg hp]
      exact h

theorem printedTexts_map (lines : List String) (lineNum : Bool) (l : List Int) :
    printedTexts (l.map (lineItem lines lineNum))
      = l.map (fun i => lines.getD i.toNat "") := by
  induction l with
  | nil => rfl
  | cons a l ih => simp [printedTexts, lineItem, ih]

/-- C9. With `before = after = 0`, count mode and line numbers off, for a
function value that behaves as the pure predicate `p`, `processLines` prints
exactly the lines `lines[i]` with `p(lines[i]) != invert`, in their original
order, one item per match index, without line number and without any context
line. -/
theorem filter_only {σ : Type} (lines : List String) (compile : GoFunc σ)
    (p : String → Bool) (params : Params)
    (hpure : ∀ line, compile.call compile.vars line = (p line, compile.vars))
    (hlen : lines.length < 2 ^ 62) (hb : params.Before = 0) (ha : params.After = 0)
    (hcount : params.Count = false) (hnum : params.LineNum = false) :
    ∃ ps, processLines lines compile params = some ps ∧
      ps = (matchIndices p params.Invert lines).map
        (fun i => Printed.line i none (lines.getD i.toNat "")) ∧
      printedTexts ps = lines.filter (fun l => p l != params.Invert) := by
  have hlen' : (lines.length : Int) < 2 ^ 62 := by exact_mod_cast hlen
  have hscan := scan_stateless compile p hpure params.Invert lines
  have hrange := scan_range compile params.Invert lines
  have hnd : (scan compile params.Invert lines).Nodup :=
    (scan_pairwise compile params.Invert lines).imp (fun h => ne_of_lt h)
  have hu : unionWindows (windowOf lines params) (scan compile params.Invert lines) []
      = scan compile params.Invert lines := by
    rw [unionWindows_singletons _ _ [] ?_ hnd (by simp)]
    · simp
    · intro m hm
      exact windowOf_zero lines params (by omega) hb ha m (hrange m hm).1 (hrange m hm).2
  refine ⟨_, processLines_eq lines compile params (by omega) hcount, ?_, ?_⟩
  · rw [hu, hscan, hnum]
    rfl
  · rw [hu, hscan, printedTexts_map, ← matchFrom_zero]
    exact matchFrom_texts p params.Invert lines []

theorem filter_only_witness :
    compileFile literalLib { defaults with Pattern := "an" }
        = some { vars := { defaults with Pattern := "an" },
                 call := regexBody literalLib (fun s => strContains s "an") } ∧
      (∃ ps, processLines ["apple", "banana", "cherry", "date"]
            { vars := { defaults with Pattern := "an" },
              call := regexBody literalLib (fun s => strContains s "an") }
            { defaults with Pattern := "an" } = some ps ∧
          ps = [Printed.line 1 none "banana"] ∧ printedTexts ps = ["banana"]) ∧
      (∃ ps, processLines ["apple", "banana", "cherry", "date"]
            { vars := { defaults with Pattern := "an", Invert := true },
              call := regexBody literalLib (fun s => strContains s "an") }
            { defaults with Pattern := "an", Invert := true } = some ps ∧
          printedTexts ps = ["apple", "cherry", "date"]) := by
  refine ⟨rfl, ?_, ?_⟩
  · obtain ⟨ps, h1, h2, h3⟩ := filter_only ["apple", "banana", "cherry", "date"]
      { vars := { defaults with Pattern := "an" },
        call := regexBody literalLib (fun s => strContains s "an") }
      (fun s => strContains s "an") { defaults with Pattern := "an" }
      (fun _ => rfl) (by decide) rfl rfl rfl rfl
    exact ⟨ps, h1, h2.trans (by decide), h3.trans (by decide)⟩
  · obtain ⟨ps, h1, _, h3⟩ := filter_only ["apple", "banana", "cherry", "date"]
      { vars := { defaults with Pattern := "an", Invert := true },
        call := regexBody literalLib (fun s => strContains s "an") }
      (fun s => strContains s "an") { defaults with Pattern := "an", Invert := true }
      (fun _ => rfl) (by decide) rfl rfl rfl rfl
    exact ⟨ps, h1, h3.trans (by decide)⟩

/-- C7 (the code departs from the claim). On the lines
`["apple","banana","cherry","date"]` with pattern `"AN"`, `ignoreCase` set and
every other option at its default, `processLines` prints nothing, not
`["banana"]`: the regular-expression closure lower-cases the line only and
matches it against the expression compiled from the unmodified `"AN"`. The
library is any one in which the four lines are their own lower-casing and the
expression compiled from `"AN"` matches exactly the strings containing `"AN"`. -/
theorem ignore_case_regex_scenario (lib : GoLib) (re : String → Bool)
    (hre : lib.mustCompile "AN" = some re) (hlit : ∀ s, re s = strContains s "AN")
    (hlow : ∀ l ∈ ["apple", "banana", "cherry", "date"], lib.toLower l = l) :
    ∃ f, compileFile lib { defaults with Pattern := "AN", IgnoreCase := true } = some f ∧
      processLines ["apple", "banana", "cherry", "date"] f
        { defaults with Pattern := "AN", IgnoreCase := true } = some [] := by
  refine ⟨{ vars := { defaults with Pattern := "AN", IgnoreCase := true },
            call := regexBody lib re }, ?_, ?_⟩
  · simp [compileFile, defaults, hre]
  · have h1 := hlow "apple" (by simp)
    have h2 := hlow "banana" (by simp)
    have h3 := hlow "cherry" (by simp)
    have h4 := hlow "date" (by simp)
    have e1 : strContains "apple" "AN" = false := by decide
    have e2 : strContains "banana" "AN" = false := by decide
    have e3 : strContains "cherry" "AN" = false := by decide
    have e4 : strContains "date" "AN" = false := by decide
    simp [processLines, scan, scanLoop, regexBody, defaults, hlit, h1, h2, h3, h4, e1, e2, e3,
      e4, outerLoop]

theorem ignore_case_regex_scenario_witness :
    ∃ f, compileFile literalLib { defaults with Pattern := "AN", IgnoreCase := true } = some f ∧
      processLines ["apple", "banana", "cherry", "date"] f
        { defaults with Pattern := "AN", IgnoreCase := true } = some [] :=
  ignore_case_regex_scenario literalLib (fun s => strContains s "AN") rfl (fun _ => rfl)
    (by decide)

/-! ## Comparing the emitted indices of two runs -/

theorem emitted_pairwise {σ : Type} (lines : List String) (compile : GoFunc σ)
    (params : Params) (hlen : (lines.length : Int) ≤ 2 ^ 62) :
    (emitted lines compile params).Pairwise (· < ·) := by
  cases hcount : params.Count with
  | true => rw [emitted_count lines compile params hcount]; exact List.Pairwise.nil
  | false =>
    rw [emitted_eq lines compile params (by omega) hcount]
    apply unionWindows_pairwise
    · exact List.Pairwise.nil
    · intro m _
      exact windowOf_pairwise lines params m
    · intro x hx
      cases hx
    · exact scan_windows_pairwise lines compile params hlen

theorem sublist_of_subset_pairwise (l₁ l₂ : List Int) (h₁ : l₁.Pairwise (· < ·))
    (h₂ : l₂.Pairwise (· < ·)) (hs : ∀ x ∈ l₁, x ∈ l₂) : l₁.Sublist l₂ :=
  List.sublist_of_subperm_of_sorted
    (List.subperm_of_subset (h₁.imp (fun h => ne_of_lt h)) hs) h₁ h₂

/-- Two runs that differ only in `Before` and `After`, the windows of the
first lying inside the windows of the second: the indices the first emits are
a subsequence of those the second emits. -/
theorem emitted_sublist_of_windows {σ : Type} (lines : List String) (compile : GoFunc σ)
    (params params' : Params) (hlen : (lines.length : Int) ≤ 2 ^ 62)
    (hinv : params'.Invert = params.Invert) (hcount : params'.Count = params.Count)
    (hwin : ∀ m, 0 ≤ m → m < (lines.length : Int) →
      startOf params' m ≤ startOf params m ∧ stopOf lines params m ≤ stopOf lines params' m) :
    (emitted lines compile params).Sublist (emitted lines compile params') := by
  apply sublist_of_subset_pairwise _ _ (emitted_pairwise lines compile params hlen)
    (emitted_pairwise lines compile params' hlen)
  intro i hi
  cases hc : params.Count with
  | true =>
    rw [emitted_count lines compile params hc] at hi
    cases hi
  | false =>
    rw [mem_emitted_iff lines compile params (by omega) hc] at hi
    rw [mem_emitted_iff lines compile params' (by omega) (hcount.trans hc), hinv]
    obtain ⟨m, hm, h1, h2⟩ := hi
    have hr := scan_range compile params.Invert lines m hm
    have hw := hwin m hr.1 hr.2
    exact ⟨m, hm, by omega, by omega⟩

/-- C11 (the claim fails on the code). A negative `before` or `after` is not
treated as 0: on the one-line input `["a"]` with a predicate that accepts every
line, `before = -1` (respectively `after = -1`) emits nothing, while
`before = 0` (respectively `after = 0`) emits index 0. -/
theorem negative_context_not_clamped :
    emitted ["a"] (GoFunc.ofPure (fun _ => true)) { defaults with Before := -1 } = [] ∧
      emitted ["a"] (GoFunc.ofPure (fun _ => true)) { defaults with Before := 0 } = [0] ∧
      emitted ["a"] (GoFunc.ofPure (fun _ => true)) { defaults with After := -1 } = [] ∧
      emitted ["a"] (GoFunc.ofPure (fun _ => true)) { defaults with After := 0 } = [0] ∧
      emitted ["a"] (GoFunc.ofPure (fun _ => true)) { defaults with Before := -1 }
        ≠ emitted ["a"] (GoFunc.ofPure (fun _ => true)) { defaults with Before := 0 } ∧
      emitted ["a"] (GoFunc.ofPure (fun _ => true)) { defaults with After := -1 }
        ≠ emitted ["a"] (GoFunc.ofPure (fun _ => true)) { defaults with After := 0 } := by
  refine ⟨by decide, by decide, by decide, by decide, by decide, by decide⟩

/-- C11 (amended). A negative context size is not clamped, it shrinks the
windows: the indices emitted with a negative `before` (as long as
`len(lines) - before` stays below `2^63`, so that line 162 does not wrap
around), respectively with a negative `after`, are a subsequence of the
indices emitted with that value replaced by 0. -/
theorem negative_context_shrinks {σ : Type} (lines : List String) (compile : GoFunc σ)
    (params : Params) (hlen : lines.length < 2 ^ 62) :
    (params.Before < 0 → (lines.length : Int) - params.Before < 2 ^ 63 →
        (emitted lines compile params).Sublist
          (emitted lines compile { params with Before := 0 })) ∧
      (params.After < 0 → -2 ^ 63 ≤ params.After →
        (emitted lines compile params).Sublist
          (emitted lines compile { params with After := 0 })) := by
  have hlen' : (lines.length : Int) < 2 ^ 62 := by exact_mod_cast hlen
  constructor
  · intro hneg hsmall
    apply emitted_sublist_of_windows lines compile params { params with Before := 0 }
      (by omega) rfl rfl
    intro m hm0 hm
    refine ⟨?_, le_refl _⟩
    unfold startOf max
    simp only []
    rw [wrapInt_id (m - 0) (by omega) (by omega), wrapInt_id (m - params.Before) (by omega)
      (by omega)]
    split <;> split <;> omega
  · intro hneg hsmall
    apply emitted_sublist_of_windows lines compile params { params with After := 0 }
      (by omega) rfl rfl
    intro m hm0 hm
    refine ⟨le_refl _, ?_⟩
    unfold stopOf min
    simp only []
    rw [wrapInt_id (m + 0) (by omega) (by omega), wrapInt_id (m + 0 + 1) (by omega) (by omega),
      wrapInt_id (m + params.After) (by omega) (by omega),
      wrapInt_id (m + params.After + 1) (by omega) (by omega)]
    split <;> split <;> omega

theorem negative_context_shrinks_witness :
    (emitted ["a", "m", "b", "m"] (GoFunc.ofPure (fun s => s == "m"))
        { defaults with Before := -1, After := 2 }).Sublist
      (emitted ["a", "m", "b", "m"] (GoFunc.ofPure (fun s => s == "m"))
        { { defaults with Before := -1, After := 2 } with Before := 0 }) ∧
    (emitted ["a", "m", "b", "m"] (GoFunc.ofPure (fun s => s == "m"))
        { defaults with Before := 1, After := -1 }).Sublist
      (emitted ["a", "m", "b", "m"] (GoFunc.ofPure (fun s => s == "m"))
        { { defaults with Before := 1, After := -1 } with After := 0 }) ∧
    emitted ["a", "m", "b", "m"] (GoFunc.ofPure (fun s => s == "m"))
        { defaults with Before := -1, After := 2 } = [2, 3] ∧
    emitted ["a", "m", "b", "m"] (GoFunc.ofPure (fun s => s == "m"))
        { defaults with Before := 0, After := 2 } = [1, 2, 3] :=
  ⟨(negative_context_shrinks ["a", "m", "b", "m"] (GoFunc.ofPure (fun s => s == "m"))
      { defaults with Before := -1, After := 2 } (by decide)).1 (by decide) (by decide),
    (negative_context_shrinks ["a", "m", "b", "m"] (GoFunc.ofPure (fun s => s == "m"))
      { defaults with Before := 1, After := -1 } (by decide)).2 (by decide) (by decide),
    by decide, by decide⟩

/-! ## The window of a match -/

/-- Without wrap-around in lines 162-163 and with non-negative `before` and
`after`, the window of an index of `[0, len(lines))` satisfies
`0 <= start <= idx < end <= len(lines)`. -/
theorem window_invariant_of_small (lines : List String) (params : Params) (m : Int)
    (hm0 : 0 ≤ m) (hm : m < (lines.length : Int))
    (hb0 : 0 ≤ params.Before) (hb : params.Before < 2 ^ 63) (ha0 : 0 ≤ params.After)
    (ha : (lines.length : Int) + params.After < 2 ^ 63) :
    0 ≤ startOf params m ∧ startOf params m ≤ m ∧ m < stopOf lines params m ∧
      stopOf lines params m ≤ (lines.length : Int) := by
  rw [startOf_eq params m hm0 (by omega) hb0 hb, stopOf_eq lines params m hm0 hm ha0 ha]
  unfold Grep.max Grep.min
  refine ⟨?_, ?_, ?_, ?_⟩ <;> split <;> omega

/-- C12 (the code departs from the claim). For the matched index 0 of the
one-line input `["a"]` with `before = 0` and `after = 2^63 - 1`, line 162
computes `start = 0` and line 163 computes `end = -2^63`, because
`line+params.After+1` wraps around: `start <= end` fails. -/
theorem window_end_overflow :
    startOf { defaults with After := 9223372036854775807 } 0 = 0 ∧
      stopOf ["a"] { defaults with After := 9223372036854775807 } 0 = -9223372036854775808 ∧
      ¬ (startOf { defaults with After := 9223372036854775807 } 0
          ≤ stopOf ["a"] { defaults with After := 9223372036854775807 } 0) := by
  refine ⟨by decide, by decide, by decide⟩

/-! ## No out-of-range indexing -/

/-- C13. For every line sequence, function value, invert flag and every
integer `before` and `after`, `processLines` returns without a panic, and
every index `i` at which it reads `lines[i]` (the indices of the printed lines)
satisfies `0 <= i < len(lines)`, where the indexing succeeds. -/
theorem no_index_panic {σ : Type} (lines : List String) (compile : GoFunc σ)
    (params : Params) (hlen : lines.length < 2 ^ 62) :
    ∃ ps, processLines lines compile params = some ps ∧
      ∀ i ∈ printedIndices ps,
        0 ≤ i ∧ i < (lines.length : Int) ∧ index lines i = some (lines.getD i.toNat "") := by
  have hlen' : (lines.length : Int) < 2 ^ 62 := by exact_mod_cast hlen
  cases hcount : params.Count with
  | true =>
    refine ⟨[Printed.count ((scan compile params.Invert lines).length : Int)], ?_, ?_⟩
    · simp [processLines, hcount]
    · intro i hi
      simp [printedIndices] at hi
  | false =>
    refine ⟨_, processLines_eq lines compile params (by omega) hcount, ?_⟩
    rw [printedIndices_map]
    intro i hi
    rw [mem_unionWindows] at hi
    rcases hi with hi | ⟨m, _, hi⟩
    · cases hi
    · rw [mem_windowOf] at hi
      have h1 := startOf_nonneg params m
      have h2 := stopOf_le lines params m
      exact ⟨by omega, by omega, index_eq lines i (by omega) (by omega)⟩

theorem no_index_panic_witness :
    ∃ ps, processLines ["a", "m", "b"] (GoFunc.ofPure (fun s => s == "m"))
        { defaults with Before := 5, After := 5 } = some ps ∧
      ∀ i ∈ printedIndices ps,
        0 ≤ i ∧ i < ((["a", "m", "b"] : List String).length : Int) ∧
          index ["a", "m", "b"] i = some ((["a", "m", "b"] : List String).getD i.toNat "") :=
  no_index_panic ["a", "m", "b"] (GoFunc.ofPure (fun s => s == "m"))
    { defaults with Before := 5, After := 5 } (by decide)

/-! ## Empty input -/

/-- C14. On the empty line sequence, for every function value, invert flag,
`before` and `after`: the match-index list is empty, normal mode prints
nothing, and count mode prints the single number 0. -/
theorem empty_input {σ : Type} (compile : GoFunc σ) (params : Params) :
    scan compile params.Invert [] = [] ∧
      (params.Count = false → processLines [] compile params = some []) ∧
      (params.Count = true → processLines [] compile params = some [Printed.count 0]) := by
  refine ⟨rfl, ?_, ?_⟩
  · intro h
    simp [processLines, h, scan, scanLoop, outerLoop]
  · intro h
    simp [processLines, h, scan, scanLoop]

theorem empty_input_witness :
    processLines [] (GoFunc.ofPure (fun _ => true)) { defaults with Before := 3, After := 4 }
        = some [] ∧
      processLines [] (GoFunc.ofPure (fun _ => true))
        { defaults with Before := 3, After := 4, Count := true } = some [Printed.count 0] :=
  ⟨(empty_input (GoFunc.ofPure (fun _ => true)) { defaults with Before := 3, After := 4 }).2.1
      rfl,
    (empty_input (GoFunc.ofPure (fun _ => true))
      { defaults with Before := 3, After := 4, Count := true }).2.2 rfl⟩

/-! ## Output format -/

theorem toString_succ_of_nonneg (i : Int) (h : 0 ≤ i) :
    toString (i + 1) = Nat.repr (i.toNat + 1) := by
  obtain ⟨n, rfl⟩ := Int.eq_ofNat_of_zero_le h
  rfl

/-- C15. Every line item `processLines` prints, at an emitted index `i`, has
`lines[i]` as its text; when the line-number flag is set it carries the number
`i+1` and its output is the decimal digits of `i+1`, then `":"`, then
`lines[i]`, then the newline of `Println`; when the flag is not set it carries
no number and its output is `lines[i]` and the newline. -/
theorem output_format {σ : Type} (lines : List String) (compile : GoFunc σ)
    (params : Params) (hlen : lines.length < 2 ^ 62) :
    ∃ ps, processLines lines compile params = some ps ∧
      ∀ i num text, Printed.line i num text ∈ ps →
        0 ≤ i ∧ lines[i.toNat]? = some text ∧
          num = (if params.LineNum then some (i + 1) else none) ∧
          (Printed.line i num text).render
            = (if params.LineNum then Nat.repr (i.toNat + 1) ++ ":" ++ text ++ "\n"
                else text ++ "\n") := by
  have hlen' : (lines.length : Int) < 2 ^ 62 := by exact_mod_cast hlen
  cases hcount : params.Count with
  | true =>
    refine ⟨[Printed.count ((scan compile params.Invert lines).length : Int)], ?_, ?_⟩
    · simp [processLines, hcount]
    · intro i num text hi
      simp at hi
  | false =>
    refine ⟨_, processLines_eq lines compile params (by omega) hcount, ?_⟩
    intro i num text hi
    obtain ⟨j, hj, hitem⟩ := List.mem_map.1 hi
    simp only [lineItem, Printed.line.injEq] at hitem
    obtain ⟨rfl, rfl, rfl⟩ := hitem
    rw [mem_unionWindows] at hj
    rcases hj with hj | ⟨m, _, hj⟩
    · cases hj
    · rw [mem_windowOf] at hj
      have h1 := startOf_nonneg params m
      have h2 := stopOf_le lines params m
      have h0 : 0 ≤ j := by omega
      have hlt : j.toNat < lines.length := by omega
      refine ⟨h0, ?_, rfl, ?_⟩
      · rw [List.getD_eq_getElem lines "" hlt, List.getElem?_eq_getElem hlt]
      · cases hn : params.LineNum with
        | true => simp [Printed.render, toString_succ_of_nonneg j h0]
        | false => simp [Printed.render]

theorem output_format_witness :
    ∃ ps, processLines ["a", "m", "b"] (GoFunc.ofPure (fun s => s == "m"))
        { defaults with LineNum := true } = some ps ∧
      ps = [Printed.line 1 (some 2) "m"] ∧ ps.map Printed.render = ["2:m\n"] ∧
      ∀ i num text, Printed.line i num text ∈ ps →
        0 ≤ i ∧ (["a", "m", "b"] : List String)[i.toNat]? = some text ∧
          num = (if ({ defaults with LineNum := true } : Params).LineNum
            then some (i + 1) else none) ∧
          (Printed.line i num text).render
            = (if ({ defaults with LineNum := true } : Params).LineNum
                then Nat.repr (i.toNat + 1) ++ ":" ++ text ++ "\n"
                else text ++ "\n") := by
  obtain ⟨ps, h1, h2⟩ := output_format ["a", "m", "b"] (GoFunc.ofPure (fun s => s == "m"))
    { defaults with LineNum := true } (by decide)
  have h3 : processLines ["a", "m", "b"] (GoFunc.ofPure (fun s => s == "m"))
      { defaults with LineNum := true } = some [Printed.line 1 (some 2) "m"] := by decide
  have h4 : ps = [Printed.line 1 (some 2) "m"] := by
    rw [h3] at h1
    exact (Option.some.inj h1).symm
  refine ⟨ps, h1, h4, ?_, h2⟩
  rw [h4]
  decide

/-! ## Matches among the emitted indices -/

theorem emitted_range {σ : Type} (lines : List String) (compile : GoFunc σ) (params : Params)
    (hlen : (lines.length : Int) < 2 ^ 63) :
    ∀ i ∈ emitted lines compile params, 0 ≤ i ∧ i < (lines.length : Int) := by
  intro i hi
  cases hcount : params.Count with
  | true =>
    rw [emitted_count lines compile params hcount] at hi
    cases hi
  | false =>
    rw [mem_emitted_iff lines compile params hlen hcount] at hi
    obtain ⟨m, _, h1, h2⟩ := hi
    have h3 := startOf_nonneg params m
    have h4 := stopOf_le lines params m
    omega

theorem emitted_length_le {σ : Type} (lines : List String) (compile : GoFunc σ)
    (params : Params) (hlen : (lines.length : Int) ≤ 2 ^ 62) :
    (emitted lines compile params).length ≤ lines.length := by
  have hnd : (emitted lines compile params).Nodup :=
    (emitted_pairwise lines compile params hlen).imp (fun h => ne_of_lt h)
  have hsub : ∀ i ∈ emitted lines compile params, i ∈ (List.range lines.length).map Int.ofNat := by
    intro i hi
    have := emitted_range lines compile params (by omega) i hi
    exact List.mem_map.2 ⟨i.toNat, List.mem_range.2 (by omega), Int.toNat_of_nonneg this.1⟩
  have := (List.subperm_of_subset hnd hsub).length_le
  simpa using this

/-- Without wrap-around in line 163 and with non-negative `before` and `after`
(count mode off), every matched index is emitted, and the number of emitted
indices lies between the number of matches and `len(lines)`. -/
theorem matched_emitted_of_small {σ : Type} (lines : List String) (compile : GoFunc σ)
    (params : Params) (hlen : lines.length < 2 ^ 62) (hcount : params.Count = false)
    (hb0 : 0 ≤ params.Before) (hb : params.Before < 2 ^ 63) (ha0 : 0 ≤ params.After)
    (ha : (lines.length : Int) + params.After < 2 ^ 63) :
    (∀ m ∈ scan compile params.Invert lines, m ∈ emitted lines compile params) ∧
      (scan compile params.Invert lines).length ≤ (emitted lines compile params).length ∧
      (emitted lines compile params).length ≤ lines.length := by
  have hlen' : (lines.length : Int) < 2 ^ 62 := by exact_mod_cast hlen
  have hmem : ∀ m ∈ scan compile params.Invert lines, m ∈ emitted lines compile params := by
    intro m hm
    rw [mem_emitted_iff lines compile params (by omega) hcount]
    have hr := scan_range compile params.Invert lines m hm
    have hw := window_invariant_of_small lines params m hr.1 hr.2 hb0 hb ha0 ha
    exact ⟨m, hm, hw.2.1, hw.2.2.1⟩
  refine ⟨hmem, ?_, emitted_length_le lines compile params (by omega)⟩
  exact (List.subperm_of_subset
    ((scan_pairwise compile params.Invert lines).imp (fun h => ne_of_lt h)) hmem).length_le

/-- C17 (the code departs from the claim). On the one-line input `["a"]` with
a predicate that accepts every line, `before = 0` and `after = 2^63 - 1`, the
matched index 0 is not emitted, and the number of emitted lines (0) is below
the number of matches (1): `line+params.After+1` wraps around in line 163. -/
theorem match_dropped_on_overflow :
    scan (GoFunc.ofPure (fun _ => true)) false ["a"] = [0] ∧
      ¬ (0 : Int) ∈ emitted ["a"] (GoFunc.ofPure (fun _ => true))
        { defaults with After := 9223372036854775807 } ∧
      (emitted ["a"] (GoFunc.ofPure (fun _ => true))
          { defaults with After := 9223372036854775807 }).length
        < (scan (GoFunc.ofPure (fun _ => true)) false ["a"]).length := by
  refine ⟨by decide, by decide, by decide⟩

/-! ## Enlarging the context -/

/-- Without wrap-around in lines 162-163, enlarging non-negative `before` and
`after` keeps every emitted index, in the same order. -/
theorem context_mono_of_small {σ : Type} (lines : List String) (compile : GoFunc σ)
    (params params' : Params) (hlen : lines.length < 2 ^ 62)
    (hinv : params'.Invert = params.Invert) (hcount : params'.Count = params.Count)
    (hb0 : 0 ≤ params.Before) (hbb : params.Before ≤ params'.Before)
    (hb : params'.Before < 2 ^ 63) (ha0 : 0 ≤ params.After)
    (haa : params.After ≤ params'.After)
    (ha : (lines.length : Int) + params'.After < 2 ^ 63) :
    (emitted lines compile params).Sublist (emitted lines compile params') := by
  have hlen' : (lines.length : Int) < 2 ^ 62 := by exact_mod_cast hlen
  apply emitted_sublist_of_windows lines compile params params' (by omega) hinv hcount
  intro m hm0 hm
  rw [startOf_eq params m hm0 (by omega) hb0 (by omega),
    startOf_eq params' m hm0 (by omega) (by omega) hb,
    stopOf_eq lines params m hm0 hm ha0 (by omega),
    stopOf_eq lines params' m hm0 hm (by omega) ha]
  unfold Grep.max Grep.min
  constructor
  · split <;> split <;> omega
  · split <;> split <;> omega

/-- C18 (the code departs from the claim). On the one-line input `["a"]` with
a predicate that accepts every line and `before = 0`, enlarging `after` from 0
to `2^63 - 1` removes the emitted index 0: with the larger value
`line+params.After+1` wraps around in line 163 and nothing is emitted. -/
theorem wider_context_drops_line :
    emitted ["a"] (GoFunc.ofPure (fun _ => true)) { defaults with After := 0 } = [0] ∧
      emitted ["a"] (GoFunc.ofPure (fun _ => true))
        { defaults with After := 9223372036854775807 } = [] ∧
      ¬ (emitted ["a"] (GoFunc.ofPure (fun _ => true)) { defaults with After := 0 }).Sublist
        (emitted ["a"] (GoFunc.ofPure (fun _ => true))
          { defaults with After := 9223372036854775807 }) := by
  refine ⟨by decide, by decide, ?_⟩
  have h1 : emitted ["a"] (GoFunc.ofPure (fun _ => true)) { defaults with After := 0 } = [0] := by
    decide
  have h2 : emitted ["a"] (GoFunc.ofPure (fun _ => true))
      { defaults with After := 9223372036854775807 } = [] := by decide
  rw [h1, h2]
  simp

/-! ## Folding the pattern on every call or once -/

theorem fixed_run (lib : GoLib) (params0 : Params)
    (hidem : params0.IgnoreCase = true → ∀ s, lib.toLower (lib.toLower s) = lib.toLower s) :
    ∀ (lines : List String) (g : GoFunc Params), g.call = fixedBody lib →
      FixedVars lib params0 g.vars →
      g.run lines = lines.map (fun L => strContains (caseFold lib params0.IgnoreCase L)
        (caseFold lib params0.IgnoreCase params0.Pattern)) := by
  intro lines
  induction lines with
  | nil => intro g _ _; rfl
  | cons l rest ih =>
    intro g hc hv
    have hr := fixedBody_result lib params0 g.vars l hidem hv
    have ih' := ih { vars := (g.call g.vars l).2, call := g.call } hc
      (by simpa only [hc] using hr.2)
    simp only [GoFunc.run, List.map_cons]
    rw [ih']
    simp only [hc, hr.1]

/-- C16. In fixed-string mode with `ignoreCase` set, every call of the
predicate returned by `compileFile` overwrites its captured pattern with the
lower-cased one; when lower-casing is idempotent (as `strings.ToLower` is) the
predicate is equivalent to the one that folds the pattern once: after any
earlier calls `pre` its result on a line `L` is
`contains(lower(L), lower(P))`, and fed any sequence of lines it returns these
values line by line. -/
theorem fold_per_call_equivalent (lib : GoLib) (params : Params)
    (hfixed : params.Fixed = true) (hic : params.IgnoreCase = true)
    (hidem : ∀ s, lib.toLower (lib.toLower s) = lib.toLower s) :
    ∃ f, compileFile lib params = some f ∧
      (∀ (pre : List String) (L : String),
        ((f.after pre).call (f.after pre).vars L).2.Pattern
          = lib.toLower (f.after pre).vars.Pattern) ∧
      (∀ (pre : List String) (L : String),
        (f.after pre).result L = foldOnce lib params.Pattern L) ∧
      (∀ lines : List String, f.run lines = lines.map (foldOnce lib params.Pattern)) := by
  have hv0 : FixedVars lib params params := ⟨rfl, Or.inl rfl⟩
  refine ⟨{ vars := params, call := fixedBody lib }, by simp [compileFile, hfixed], ?_, ?_, ?_⟩
  · intro pre L
    obtain ⟨hc, hv⟩ := fixed_after lib params (fun _ => hidem) pre
      { vars := params, call := fixedBody lib } rfl hv0
    have hic' : (GoFunc.after { vars := params, call := fixedBody lib } pre).vars.IgnoreCase
        = true := hv.1.trans hic
    simp [hc, fixedBody, hic']
  · intro pre L
    obtain ⟨hc, hv⟩ := fixed_after lib params (fun _ => hidem) pre
      { vars := params, call := fixedBody lib } rfl hv0
    simp only [GoFunc.result, hc]
    rw [(fixedBody_result lib params _ L (fun _ => hidem) hv).1]
    simp [caseFold, hic, foldOnce]
  · intro lines
    rw [fixed_run lib params (fun _ => hidem) lines { vars := params, call := fixedBody lib }
      rfl hv0]
    simp [caseFold, hic, foldOnce]

theorem fold_per_call_equivalent_witness :
    ∃ f, compileFile literalLib
        { defaults with Fixed := true, IgnoreCase := true, Pattern := "AN" } = some f ∧
      (f.after ["x", "Y"]).result "BaNana" = foldOnce literalLib "AN" "BaNana" ∧
      foldOnce literalLib "AN" "BaNana" = true ∧
      f.run ["apple", "BANANA", "cherry", "bandana"] = [false, true, false, true] := by
  obtain ⟨f, hf, _, h2, h3⟩ := fold_per_call_equivalent literalLib
    { defaults with Fixed := true, IgnoreCase := true, Pattern := "AN" } rfl rfl
    asciiLower_idem
  refine ⟨f, hf, h2 ["x", "Y"] "BaNana", by decide, ?_⟩
  rw [h3]
  decide

/-! ## Filtering the filtered lines again -/

theorem scanLoop_invariant {σ : Type} (call : σ → String → Bool × σ) (p : String → Bool)
    (I : σ → Prop) (hI : ∀ v, I v → ∀ line, (call v line).1 = p line ∧ I (call v line).2)
    (invert : Bool) :
    ∀ (lines : List String) (i : Nat) (v : σ) (result : List Int), I v →
      (scanLoop call invert lines i v result).1 = result ++ matchFrom p invert lines i := by
  intro lines
  induction lines with
  | nil => intro i v result _; simp [scanLoop, matchFrom]
  | cons l rest ih =>
    intro i v result hv
    obtain ⟨h1, h2⟩ := hI v hv l
    by_cases h : (p l != invert) = true
    · simp only [scanLoop, matchFrom, h1, h, if_true]
      rw [ih (i + 1) _ _ h2]
      simp
    · simp only [scanLoop, matchFrom, h1, h, Bool.false_eq_true, if_false]
      rw [ih (i + 1) _ _ h2]

theorem after_invariant {σ : Type} (p : String → Bool) (I : σ → Prop) :
    ∀ (pre : List String) (f : GoFunc σ),
      (∀ v, I v → ∀ line, (f.call v line).1 = p line ∧ I (f.call v line).2) → I f.vars →
      (f.after pre).call = f.call ∧ I (f.after pre).vars := by
  intro pre
  induction pre with
  | nil => intro f _ hv; exact ⟨rfl, hv⟩
  | cons l rest ih =>
    intro f hI hv
    simp only [GoFunc.after]
    exact ih { f with vars := (f.call f.vars l).2 } hI (hI f.vars hv l).2

/-- With `before = after = 0` and count mode off, a function value that keeps
an invariant `I` of its captured variables under which it answers as the pure
predicate `p` makes `processLines` print exactly the lines `l` with
`p(l) != invert`, in order. -/
theorem processLines_filter {σ : Type} (lines : List String) (compile : GoFunc σ)
    (p : String → Bool) (I : σ → Prop) (params : Params)
    (hI : ∀ v, I v → ∀ line, (compile.call v line).1 = p line ∧ I (compile.call v line).2)
    (hv : I compile.vars)
    (hlen : (lines.length : Int) < 2 ^ 63) (hb : params.Before = 0) (ha : params.After = 0)
    (hcount : params.Count = false) :
    ∃ ps, processLines lines compile params = some ps ∧
      ps = (matchIndices p params.Invert lines).map (lineItem lines params.LineNum) ∧
      printedTexts ps = lines.filter (fun l => p l != params.Invert) := by
  have hscan : scan compile params.Invert lines = matchIndices p params.Invert lines := by
    unfold scan
    rw [scanLoop_invariant compile.call p I hI params.Invert lines 0 compile.vars [] hv,
      List.nil_append, matchFrom_zero]
  have hrange := scan_range compile params.Invert lines
  have hnd : (scan compile params.Invert lines).Nodup :=
    (scan_pairwise compile params.Invert lines).imp (fun h => ne_of_lt h)
  have hu : unionWindows (windowOf lines params) (scan compile params.Invert lines) []
      = scan compile params.Invert lines := by
    rw [unionWindows_singletons _ _ [] ?_ hnd (by simp)]
    · simp
    · intro m hm
      exact windowOf_zero lines params hlen hb ha m (hrange m hm).1 (hrange m hm).2
  refine ⟨_, processLines_eq lines compile params hlen hcount, ?_, ?_⟩
  · rw [hu, hscan]
  · rw [hu, hscan, printedTexts_map, ← matchFrom_zero]
    exact matchFrom_texts p params.Invert lines []

theorem render_lineItem_map (lines : List String) (l : List Int) :
    (l.map (lineItem lines false)).map Printed.render
      = (printedTexts (l.map (lineItem lines false))).map (fun t => t ++ "\n") := by
  induction l with
  | nil => rfl
  | cons a l ih =>
    simp only [List.map_cons, printedTexts, lineItem, List.cons.injEq]
    exact ⟨by simp [Printed.render], by simpa [lineItem] using ih⟩

/-- Every function value `compileFile` returns answers as a pure predicate
under an invariant of its captured variables; in fixed-string mode with
`ignoreCase` this needs lower-casing to be idempotent. -/
theorem compileFile_behaves (lib : GoLib) (params : Params) (f : GoFunc Params)
    (hf : compileFile lib params = some f)
    (hidem : params.Fixed = true → params.IgnoreCase = true →
      ∀ s, lib.toLower (lib.toLower s) = lib.toLower s) :
    ∃ (p : String → Bool) (I : Params → Prop),
      (∀ v, I v → ∀ line, (f.call v line).1 = p line ∧ I (f.call v line).2) ∧ I f.vars := by
  cases hfixed : params.Fixed with
  | true =>
    simp only [compileFile, hfixed, if_true, Option.some.injEq] at hf
    subst hf
    refine ⟨fun L => strContains (caseFold lib params.IgnoreCase L)
      (caseFold lib params.IgnoreCase params.Pattern), FixedVars lib params, ?_,
      ⟨rfl, Or.inl rfl⟩⟩
    intro v hv line
    exact fixedBody_result lib params v line (hidem hfixed) hv
  | false =>
    simp only [compileFile, hfixed] at hf
    cases hre : lib.mustCompile params.Pattern with
    | none =>
      rw [hre] at hf
      simp at hf
    | some re =>
      rw [hre] at hf
      simp only [Bool.false_eq_true, if_false, Option.some.injEq] at hf
      subst hf
      refine ⟨fun L => re (caseFold lib params.IgnoreCase L), fun v => v = params, ?_, rfl⟩
      intro v hv line
      subst hv
      cases hic : v.IgnoreCase <;> simp [regexBody, caseFold, hic]

/-- C19 (filter idempotence). With `before = after = 0`, count mode and line
numbers off, for every predicate `compileFile` returns and every invert flag:
`processLines` prints some lines, and run again on exactly those lines with
the same predicate (in whatever state earlier calls `pre` left it) and the
same flags it prints the same lines again, in the same order. In fixed-string
mode with `ignoreCase` this uses that lower-casing is idempotent. -/
theorem filter_idempotent (lib : GoLib) (params : Params) (f : GoFunc Params)
    (lines : List String) (hf : compileFile lib params = some f)
    (hidem : params.Fixed = true → params.IgnoreCase = true →
      ∀ s, lib.toLower (lib.toLower s) = lib.toLower s)
    (hlen : lines.length < 2 ^ 62) (hb : params.Before = 0) (ha : params.After = 0)
    (hcount : params.Count = false) (hnum : params.LineNum = false) :
    ∃ out, processLines lines f params = some out ∧
      ∀ pre : List String, ∃ out2,
        processLines (printedTexts out) (f.after pre) params = some out2 ∧
          printedTexts out2 = printedTexts out ∧
          out2.map Printed.render = out.map Printed.render := by
  have hlen' : (lines.length : Int) < 2 ^ 62 := by exact_mod_cast hlen
  obtain ⟨p, I, hI, hv⟩ := compileFile_behaves lib params f hf hidem
  obtain ⟨out, h1, h2, h3⟩ := processLines_filter lines f p I params hI hv (by omega) hb ha
    hcount
  refine ⟨out, h1, fun pre => ?_⟩
  obtain ⟨hc, hv'⟩ := after_invariant p I pre f hI hv
  have hle : (printedTexts out).length ≤ lines.length := by
    rw [h3]
    exact List.length_filter_le _ _
  obtain ⟨out2, k1, k2, k3⟩ := processLines_filter (printedTexts out) (f.after pre) p I params
    (by rw [hc]; exact hI) hv' (by omega) hb ha hcount
  have hsame : printedTexts out2 = printedTexts out := by
    rw [k3, h3, List.filter_filter]
    simp
  refine ⟨out2, k1, hsame, ?_⟩
  rw [hnum] at h2 k2
  rw [k2, render_lineItem_map, ← k2, hsame]
  rw [h2, render_lineItem_map]

theorem filter_idempotent_witness :
    ∃ out, processLines ["apple", "BANANA", "cherry", "bandana"]
        { vars := { defaults with Fixed := true, IgnoreCase := true, Pattern := "AN" },
          call := fixedBody literalLib }
        { defaults with Fixed := true, IgnoreCase := true, Pattern := "AN" } = some out ∧
      printedTexts out = ["BANANA", "bandana"] ∧
      ∀ pre : List String, ∃ out2,
        processLines (printedTexts out)
          (GoFunc.after
            { vars := { defaults with Fixed := true, IgnoreCase := true, Pattern := "AN" },
              call := fixedBody literalLib } pre)
          { defaults with Fixed := true, IgnoreCase := true, Pattern := "AN" } = some out2 ∧
          printedTexts out2 = printedTexts out ∧
          out2.map Printed.render = out.map Printed.render := by
  obtain ⟨out, h1, h2⟩ := filter_idempotent literalLib
    { defaults with Fixed := true, IgnoreCase := true, Pattern := "AN" }
    { vars := { defaults with Fixed := true, IgnoreCase := true, Pattern := "AN" },
      call := fixedBody literalLib }
    ["apple", "BANANA", "cherry", "bandana"] rfl (fun _ _ => asciiLower_idem) (by decide)
    rfl rfl rfl rfl
  refine ⟨out, h1, ?_, h2⟩
  have h3 : processLines ["apple", "BANANA", "cherry", "bandana"]
      { vars := { defaults with Fixed := true, IgnoreCase := true, Pattern := "AN" },
        call := fixedBody literalLib }
      { defaults with Fixed := true, IgnoreCase := true, Pattern := "AN" }
      = some [Printed.line 1 none "BANANA", Printed.line 3 none "bandana"] := by decide
  rw [h3] at h1
  cases h1
  rfl

end Grep
